import Mathlib

/-!
Shallow embedding of the LectureChat server pipeline (JavaScript sources)
and proofs about its specified behaviour.

Numbers that are JS `number` values holding times, scores and confidences
are modelled as `ℚ`; character offsets and counts are `ℕ`.  Fallible JS
code (`throw`) is modelled with `Except String`/`Option`.  External
services (OpenAI, Pinecone, the LangChain text splitter, uuid generation)
are parameters of the functions that call them.
-/

namespace LectureChat

/-! ## String utilities shared by several services

JS `String.prototype.indexOf` (first occurrence, `none` for -1),
`trim`, `split(/\s+/)`, `split(':')` and `join(' ')`, modelled on
`List Char`. -/

/-- Whitespace class used by JS `trim` and `\s` for the characters that
occur in this pipeline. -/
def isWs (c : Char) : Bool :=
  c = ' ' || c = '\t' || c = '\n' || c = '\r'

/-- JS `hay.indexOf(needle)`: offset of the first occurrence, `none` when
the JS code would get `-1`. -/
def indexOfChars (needle : List Char) : List Char → Option Nat
  | [] => if needle.isPrefixOf ([] : List Char) then some 0 else none
  | c :: t =>
    if needle.isPrefixOf (c :: t) then some 0
    else (indexOfChars needle t).map (· + 1)

/-- JS `hay.indexOf(needle)` on `String`. -/
def stringIndexOf (hay needle : String) : Option Nat :=
  indexOfChars needle.data hay.data

/-- JS `s.trim()`. -/
def jsTrim (s : String) : String :=
  ⟨((s.data.dropWhile isWs).reverse.dropWhile isWs).reverse⟩

/-- Helper for `wordsOf`: accumulates the current word (reversed). -/
def wordsAux : List Char → List Char → List (List Char)
  | [], cur => if cur.isEmpty then [] else [cur.reverse]
  | c :: t, cur =>
    if isWs c then
      if cur.isEmpty then wordsAux t [] else cur.reverse :: wordsAux t []
    else wordsAux t (c :: cur)

/-- JS `s.split(/\s+/)` restricted to trimmed input: the maximal
whitespace-free words in order (no empty words for trimmed input). -/
def wordsOf (l : List Char) : List (List Char) :=
  wordsAux l []

/-- JS `parts.join(' ')`. -/
def joinSpace : List (List Char) → List Char
  | [] => []
  | [w] => w
  | w :: ws => w ++ ' ' :: joinSpace ws

/-- JS `s.substring(0, n)` (also used for `.slice`-like truncation). -/
def jsSubstringTo (s : String) (n : Nat) : String :=
  ⟨s.data.take n⟩

/-! ## Transcript segments and the text chunker
(src/server/services/textChunker.js)

A Whisper segment carries its text, start/end times and a confidence.
The JS field `end` is called `stop` here (`end` is a Lean keyword). -/

structure Segment where
  text : String
  start : ℚ
  /-- JS field `end`. -/
  stop : ℚ
  confidence : ℚ
deriving DecidableEq, Repr

/-- Result of `mapChunkToTimestamps` / `findApproximateTimestamps`;
JS object `{start, end, confidence}`, `end` renamed to `stop`. -/
structure ChunkTimestamps where
  start : ℚ
  stop : ℚ
  confidence : ℚ
deriving DecidableEq, Repr

/-- The segment of `segments` whose character range (from cumulative text
lengths, starting at `currentPos`) contains offset `approximateStart`;
the scan loop of `findApproximateTimestamps`. -/
def containingSegment (approximateStart : Nat) : List Segment → Nat → Option Segment
  | [], _ => none
  | seg :: rest, currentPos =>
    let segmentEnd := currentPos + seg.text.length
    if currentPos ≤ approximateStart ∧ approximateStart < segmentEnd then some seg
    else containingSegment approximateStart rest segmentEnd

/-- `TextChunker.findApproximateTimestamps`: locate the first five
whitespace-delimited words of the chunk in the full text and attribute
the chunk to the containing segment with confidence discounted by 0.7. -/
def findApproximateTimestamps (chunk fullText : String) (segments : List Segment) :
    ChunkTimestamps :=
  let chunkWords : List Char := joinSpace ((wordsOf (jsTrim chunk).data).take 5)
  match indexOfChars chunkWords fullText.data with
  | none => ⟨0, 0, 0⟩
  | some approximateStart =>
    match containingSegment approximateStart segments 0 with
    | some seg => ⟨seg.start, seg.stop, seg.confidence * (7 / 10)⟩
    | none => ⟨0, 0, 0⟩

/-- Accumulator of the segment walk in `mapChunkToTimestamps`:
`startTime`/`endTime` are the JS `null`-initialised locals, `currentPos`
the running character offset. -/
structure OverlapAcc where
  startTime : Option ℚ
  endTime : Option ℚ
  totalConfidence : ℚ
  segmentCount : Nat
  currentPos : Nat
deriving Repr

/-- One iteration of the `for (const segment of segments)` loop of
`mapChunkToTimestamps`. -/
def overlapStep (chunkStart chunkEnd : Nat) (acc : OverlapAcc) (seg : Segment) :
    OverlapAcc :=
  let segmentStart := acc.currentPos
  let segmentEnd := acc.currentPos + seg.text.length
  if chunkStart < segmentEnd ∧ segmentStart < chunkEnd then
    { startTime := match acc.startTime with
        | some s => some s
        | none => some seg.start
      endTime := some seg.stop
      totalConfidence := acc.totalConfidence + seg.confidence
      segmentCount := acc.segmentCount + 1
      currentPos := segmentEnd }
  else { acc with currentPos := segmentEnd }

/-- `TextChunker.mapChunkToTimestamps`: exact substring locate of the
trimmed chunk, then a walk over the segments accumulating character
offsets; falls back to `findApproximateTimestamps` when the locate
fails.  JS `startTime || 0` agrees with `Option.getD 0` on rationals. -/
def mapChunkToTimestamps (chunk fullText : String) (segments : List Segment) :
    ChunkTimestamps :=
  if segments.isEmpty then ⟨0, 0, 0⟩
  else
    match stringIndexOf fullText (jsTrim chunk) with
    | none => findApproximateTimestamps chunk fullText segments
    | some chunkStart =>
      let chunkEnd := chunkStart + chunk.length
      let acc := segments.foldl (overlapStep chunkStart chunkEnd)
        ⟨none, none, 0, 0, 0⟩
      { start := acc.startTime.getD 0
        stop := acc.endTime.getD 0
        confidence := if acc.segmentCount > 0 then
            acc.totalConfidence / acc.segmentCount else 0 }

/-- JS `countWords`: words of the trimmed text. -/
def countWords (text : String) : Nat :=
  (wordsOf (jsTrim text).data).length

/-- Chunk record produced by `TextChunker.chunkText` (JS field `endTime`
for the segment `end`). -/
structure Chunk where
  index : Nat
  text : String
  length : Nat
  wordCount : Nat
  startTime : ℚ
  endTime : ℚ
  confidence : ℚ
deriving DecidableEq, Repr

/-- The chunk-metadata map of `chunkText` with its running index. -/
def chunkTextAux (fullText : String) (segments : List Segment) :
    Nat → List String → List Chunk
  | _, [] => []
  | i, chunk :: rest =>
    let timestamps := mapChunkToTimestamps chunk fullText segments
    { index := i
      text := jsTrim chunk
      length := chunk.length
      wordCount := countWords chunk
      startTime := timestamps.start
      endTime := timestamps.stop
      confidence := timestamps.confidence } :: chunkTextAux fullText segments (i + 1) rest

/-- `TextChunker.chunkText`.  The `RecursiveCharacterTextSplitter` is an
external LangChain library; its output is the parameter `textChunks`. -/
def chunkText (textChunks : List String) (fullText : String)
    (segments : List Segment) : List Chunk :=
  chunkTextAux fullText segments 0 textChunks

example :
    mapChunkToTimestamps "hello" "hello" [⟨"hello", 5, 3, 1⟩] = ⟨5, 3, 1⟩ := by
  simp +decide [mapChunkToTimestamps, stringIndexOf, indexOfChars, jsTrim, isWs,
    overlapStep, List.isPrefixOf, String.length, ChunkTimestamps.mk.injEq]

example :
    findApproximateTimestamps "zz qq" "ab" [⟨"ab", 1, 2, 1⟩] = ⟨0, 0, 0⟩ := by
  simp [findApproximateTimestamps, indexOfChars, jsTrim, isWs, wordsOf,
    wordsAux, joinSpace, List.isPrefixOf]

/-! ### The segment walk, characterised

`overlapSegs` is the sublist of segments whose character range (derived
from cumulative text lengths starting at `pos`) overlaps the chunk range
`[chunkStart, chunkEnd)`; the fold of `overlapStep` computes its first
start, last end, confidence sum and length. -/

/-- Total character length of a segment list. -/
def segTextLen (segs : List Segment) : Nat :=
  (segs.map fun s => s.text.length).sum

/-- `match`-free first-of-two option choice (JS `x === null ? y : x`). -/
def orElseO {α : Type} : Option α → Option α → Option α
  | some x, _ => some x
  | none, b => b

theorem orElseO_none_right {α : Type} (a : Option α) : orElseO a none = a := by
  cases a <;> rfl

theorem orElseO_none_left {α : Type} (b : Option α) : orElseO none b = b := rfl

theorem orElseO_orElseO_some {α : Type} (a : Option α) (x : α) (y : Option α) :
    orElseO (orElseO a (some x)) y = orElseO a (some x) := by
  cases a <;> rfl

/-- Segments overlapping the chunk range, in input order. -/
def overlapSegs (chunkStart chunkEnd : Nat) : List Segment → Nat → List Segment
  | [], _ => []
  | seg :: rest, pos =>
    let segmentEnd := pos + seg.text.length
    if chunkStart < segmentEnd ∧ pos < chunkEnd then
      seg :: overlapSegs chunkStart chunkEnd rest segmentEnd
    else overlapSegs chunkStart chunkEnd rest segmentEnd

theorem overlapSegs_subset {cs ce : Nat} :
    ∀ (segs : List Segment) (pos : Nat), ∀ s ∈ overlapSegs cs ce segs pos, s ∈ segs := by
  intro segs
  induction segs with
  | nil => intro pos s hs; simp [overlapSegs] at hs
  | cons seg rest ih =>
    intro pos s hs
    simp only [overlapSegs] at hs
    split at hs
    · rcases List.mem_cons.mp hs with h | h
      · simp [h]
      · exact List.mem_cons_of_mem _ (ih _ _ h)
    · exact List.mem_cons_of_mem _ (ih _ _ hs)

theorem overlapSegs_pairwise {R : Segment → Segment → Prop} {cs ce : Nat} :
    ∀ (segs : List Segment) (pos : Nat), List.Pairwise R segs →
      List.Pairwise R (overlapSegs cs ce segs pos) := by
  intro segs
  induction segs with
  | nil => intro pos _; simp [overlapSegs]
  | cons seg rest ih =>
    intro pos hp
    rcases List.pairwise_cons.mp hp with ⟨hhead, htail⟩
    simp only [overlapSegs]
    split
    · exact List.pairwise_cons.mpr
        ⟨fun s hs => hhead s (overlapSegs_subset _ _ s hs), ih _ htail⟩
    · exact ih _ htail

/-- The fold of `overlapStep` in terms of `overlapSegs`. -/
theorem foldl_overlapStep_spec (cs ce : Nat) :
    ∀ (segs : List Segment) (acc : OverlapAcc),
      segs.foldl (overlapStep cs ce) acc =
        { startTime := orElseO acc.startTime
            (((overlapSegs cs ce segs acc.currentPos).head?).map Segment.start)
          endTime := orElseO
            (((overlapSegs cs ce segs acc.currentPos).getLast?).map Segment.stop)
            acc.endTime
          totalConfidence := acc.totalConfidence +
            ((overlapSegs cs ce segs acc.currentPos).map Segment.confidence).sum
          segmentCount := acc.segmentCount +
            (overlapSegs cs ce segs acc.currentPos).length
          currentPos := acc.currentPos + segTextLen segs } := by
  intro segs
  induction segs with
  | nil =>
    intro acc
    simp [overlapSegs, segTextLen, orElseO_none_right, orElseO_none_left]
  | cons seg rest ih =>
    intro acc
    rw [List.foldl_cons, ih]
    simp only [overlapStep, overlapSegs, segTextLen, List.map_cons, List.sum_cons]
    by_cases h : cs < acc.currentPos + seg.text.length ∧ acc.currentPos < ce
    · rw [if_pos h, if_pos h]
      simp only [List.map_cons, List.sum_cons, List.length_cons, List.head?_cons,
        Option.map_some, OverlapAcc.mk.injEq]
      refine ⟨?_, ?_, by ring, by omega, by omega⟩
      · cases acc.startTime <;> simp [orElseO]
      · rcases hov : overlapSegs cs ce rest (acc.currentPos + seg.text.length)
          with _ | ⟨x, xs⟩ <;> simp [orElseO, List.getLast?_cons_cons]
        cases hlast : (x :: xs).getLast? with
        | none => simp at hlast
        | some b => simp [orElseO]
    · rw [if_neg h, if_neg h]
      simp [OverlapAcc.mk.injEq, Nat.add_assoc]

theorem containingSegment_mem {p : Nat} :
    ∀ (segs : List Segment) (pos : Nat) (seg : Segment),
      containingSegment p segs pos = some seg → seg ∈ segs := by
  intro segs
  induction segs with
  | nil => intro pos seg h; simp [containingSegment] at h
  | cons s rest ih =>
    intro pos seg h
    simp only [containingSegment] at h
    split at h
    · exact (Option.some_inj.mp h) ▸ List.mem_cons_self s rest
    · exact List.mem_cons_of_mem _ (ih _ _ h)

theorem overlapSegs_ne_nil {cs ce : Nat} :
    ∀ (segs : List Segment) (pos : Nat), pos ≤ cs → cs < ce →
      cs < pos + segTextLen segs → overlapSegs cs ce segs pos ≠ [] := by
  intro segs
  induction segs with
  | nil => intro pos h₁ _ h₃; simp [segTextLen] at h₃; omega
  | cons seg rest ih =>
    intro pos h₁ h₂ h₃
    simp only [overlapSegs]
    by_cases h : cs < pos + seg.text.length
    · rw [if_pos ⟨h, lt_of_le_of_lt h₁ h₂⟩]
      simp
    · rw [if_neg (by omega)]
      refine ih (pos + seg.text.length) (by omega) h₂ ?_
      simp only [segTextLen, List.map_cons, List.sum_cons] at h₃ ⊢
      omega

theorem overlapSegs_head_mono {cs₁ ce₁ cs₂ ce₂ : Nat}
    (hcs : cs₁ ≤ cs₂) (hce₁ : cs₁ < ce₁) (hce₂ : cs₂ < ce₂) :
    ∀ (segs : List Segment) (pos : Nat), pos ≤ cs₁ →
      List.Pairwise (fun a b : Segment => a.start ≤ b.start) segs →
      ∀ a b, (overlapSegs cs₁ ce₁ segs pos).head? = some a →
        (overlapSegs cs₂ ce₂ segs pos).head? = some b → a.start ≤ b.start := by
  intro segs
  induction segs with
  | nil => intro pos _ _ a b ha _; simp [overlapSegs] at ha
  | cons seg rest ih =>
    intro pos hpos hp a b ha hb
    rcases List.pairwise_cons.mp hp with ⟨hhead, htail⟩
    simp only [overlapSegs] at ha hb
    by_cases h₂ : cs₂ < pos + seg.text.length
    · have h₁ : cs₁ < pos + seg.text.length := lt_of_le_of_lt hcs h₂
      rw [if_pos ⟨h₁, lt_of_le_of_lt hpos hce₁⟩] at ha
      rw [if_pos ⟨h₂, lt_of_le_of_lt (le_trans hpos hcs) hce₂⟩] at hb
      simp only [List.head?_cons, Option.some_inj] at ha hb
      rw [← ha, ← hb]
    · rw [if_neg (by omega)] at hb
      by_cases h₁ : cs₁ < pos + seg.text.length
      · rw [if_pos ⟨h₁, lt_of_le_of_lt hpos hce₁⟩] at ha
        simp only [List.head?_cons, Option.some_inj] at ha
        have hbmem : b ∈ rest := by
          have : b ∈ overlapSegs cs₂ ce₂ rest (pos + seg.text.length) := by
            rcases hov : overlapSegs cs₂ ce₂ rest (pos + seg.text.length) with _ | ⟨x, xs⟩
            · rw [hov] at hb; simp at hb
            · rw [hov] at hb
              simp only [List.head?_cons, Option.some_inj] at hb
              simp [hb]
          exact overlapSegs_subset _ _ _ this
        exact ha ▸ hhead b hbmem
      · rw [if_neg (by omega)] at ha
        exact ih (pos + seg.text.length) (by omega) htail a b ha hb

theorem overlapSegs_start_le_stop {cs ce : Nat} {segs : List Segment}
    (hp : List.Pairwise (fun a b : Segment => a.start ≤ b.start) segs)
    (hss : ∀ s ∈ segs, s.start ≤ s.stop) (pos : Nat) :
    ∀ a b, (overlapSegs cs ce segs pos).head? = some a →
      (overlapSegs cs ce segs pos).getLast? = some b → a.start ≤ b.stop := by
  intro a b ha hb
  have hpov := @overlapSegs_pairwise (fun a b : Segment => a.start ≤ b.start)
    cs ce segs pos hp
  rcases hov : overlapSegs cs ce segs pos with _ | ⟨x, xs⟩
  · rw [hov] at ha; simp at ha
  · rw [hov] at ha hb hpov
    simp only [List.head?_cons, Option.some_inj] at ha
    have hbmem : b ∈ x :: xs := by
      rcases List.mem_getLast?_eq_getLast (l := x :: xs) hb with ⟨hne, hbl⟩
      exact hbl ▸ List.getLast_mem hne
    have hbsegs : b ∈ segs := overlapSegs_subset _ _ _ (hov ▸ hbmem)
    rcases List.mem_cons.mp hbmem with hbx | hbtl
    · subst ha; cases hbx; exact hss b hbsegs
    · subst ha
      exact le_trans ((List.pairwise_cons.mp hpov).1 b hbtl) (hss b hbsegs)

/-- Start/end/confidence of the exact-locate path, read off the fold. -/
theorem mapChunkToTimestamps_exact {chunk fullText : String} {segs : List Segment}
    {p : Nat} (hne : segs ≠ [])
    (hfound : stringIndexOf fullText (jsTrim chunk) = some p) :
    mapChunkToTimestamps chunk fullText segs =
      { start := (((overlapSegs p (p + chunk.length) segs 0).head?).map
          Segment.start).getD 0
        stop := (((overlapSegs p (p + chunk.length) segs 0).getLast?).map
          Segment.stop).getD 0
        confidence := if 0 < (overlapSegs p (p + chunk.length) segs 0).length then
            ((overlapSegs p (p + chunk.length) segs 0).map Segment.confidence).sum /
              ((overlapSegs p (p + chunk.length) segs 0).length : ℚ)
          else 0 } := by
  have hemp : segs.isEmpty = false := by
    cases segs with
    | nil => exact absurd rfl hne
    | cons a l => rfl
  simp only [mapChunkToTimestamps, hemp, Bool.false_eq_true, if_false, hfound]
  rw [foldl_overlapStep_spec]
  simp [orElseO_none_left, orElseO_none_right]

theorem mapChunkToTimestamps_start_le_stop {segs : List Segment}
    (hp : List.Pairwise (fun a b : Segment => a.start ≤ b.start) segs)
    (hss : ∀ s ∈ segs, s.start ≤ s.stop) (chunk fullText : String) :
    (mapChunkToTimestamps chunk fullText segs).start ≤
      (mapChunkToTimestamps chunk fullText segs).stop := by
  by_cases hemp : segs.isEmpty
  · simp [mapChunkToTimestamps, hemp]
  · rcases hidx : stringIndexOf fullText (jsTrim chunk) with _ | p
    · simp only [mapChunkToTimestamps, hemp, Bool.false_eq_true, if_false, hidx,
        findApproximateTimestamps]
      rcases indexOfChars (joinSpace ((wordsOf (jsTrim chunk).data).take 5))
          fullText.data with _ | q
      · simp
      · rcases hcont : containingSegment q segs 0 with _ | seg
        · simp [hcont]
        · simpa [hcont] using hss seg (containingSegment_mem segs 0 seg hcont)
    · have hne : segs ≠ [] := by
        intro h; rw [h] at hemp; exact hemp rfl
      rw [mapChunkToTimestamps_exact hne hidx]
      rcases hov : overlapSegs p (p + chunk.length) segs 0 with _ | ⟨x, xs⟩
      · simp
      · have hlast : ∃ b, (x :: xs).getLast? = some b := by
          rw [List.getLast?_eq_getLast_of_ne_nil (List.cons_ne_nil x xs)]
          exact ⟨_, rfl⟩
        rcases hlast with ⟨b, hb⟩
        simp only [hov, List.head?_cons, hb, Option.map_some, Option.getD_some]
        exact overlapSegs_start_le_stop hp hss 0 x b (hov ▸ rfl) (hov ▸ hb)

theorem mapChunkToTimestamps_start_mono {segs : List Segment}
    (hp : List.Pairwise (fun a b : Segment => a.start ≤ b.start) segs)
    {fullText c₁ c₂ : String} {p₁ p₂ : Nat}
    (hl₁ : 0 < c₁.length) (hl₂ : 0 < c₂.length)
    (h₁ : stringIndexOf fullText (jsTrim c₁) = some p₁)
    (h₂ : stringIndexOf fullText (jsTrim c₂) = some p₂)
    (hle : p₁ ≤ p₂) (hlt : p₂ < segTextLen segs) :
    (mapChunkToTimestamps c₁ fullText segs).start ≤
      (mapChunkToTimestamps c₂ fullText segs).start := by
  have hne : segs ≠ [] := by
    intro h; rw [h] at hlt; simp [segTextLen] at hlt
  rw [mapChunkToTimestamps_exact hne h₁, mapChunkToTimestamps_exact hne h₂]
  obtain ⟨a, ha⟩ : ∃ a, (overlapSegs p₁ (p₁ + c₁.length) segs 0).head? = some a := by
    rcases hov : overlapSegs p₁ (p₁ + c₁.length) segs 0 with _ | ⟨x, xs⟩
    · exact absurd hov (overlapSegs_ne_nil segs 0 (Nat.zero_le _) (by omega) (by omega))
    · exact ⟨x, rfl⟩
  obtain ⟨b, hb⟩ : ∃ b, (overlapSegs p₂ (p₂ + c₂.length) segs 0).head? = some b := by
    rcases hov : overlapSegs p₂ (p₂ + c₂.length) segs 0 with _ | ⟨x, xs⟩
    · exact absurd hov (overlapSegs_ne_nil segs 0 (Nat.zero_le _) (by omega) (by omega))
    · exact ⟨x, rfl⟩
  simp only [ha, hb, Option.map_some, Option.getD_some]
  exact overlapSegs_head_mono hle (by omega) (by omega) segs 0 (Nat.zero_le _) hp a b ha hb

theorem chunkTextAux_mem {ft : String} {segs : List Segment} :
    ∀ (l : List String) (i : Nat) (c : Chunk), c ∈ chunkTextAux ft segs i l →
      ∃ ch ∈ l, c.startTime = (mapChunkToTimestamps ch ft segs).start ∧
        c.endTime = (mapChunkToTimestamps ch ft segs).stop := by
  intro l
  induction l with
  | nil => intro i c h; simp [chunkTextAux] at h
  | cons ch rest ih =>
    intro i c h
    simp only [chunkTextAux] at h
    rcases List.mem_cons.mp h with h | h
    · exact ⟨ch, List.mem_cons_self _ _, by rw [h], by rw [h]⟩
    · rcases ih (i + 1) c h with ⟨ch₂, hmem, h₁, h₂⟩
      exact ⟨ch₂, List.mem_cons_of_mem _ hmem, h₁, h₂⟩

theorem chunkTextAux_map_startTime {ft : String} {segs : List Segment} :
    ∀ (l : List String) (i : Nat),
      (chunkTextAux ft segs i l).map Chunk.startTime =
        l.map (fun ch => (mapChunkToTimestamps ch ft segs).start) := by
  intro l
  induction l with
  | nil => intro i; rfl
  | cons ch rest ih => intro i; simp [chunkTextAux, ih (i + 1)]

/-- C3, counterexample: a single segment whose `start` exceeds its `end`
has (trivially) non-decreasing start times, yet the chunk derived from it
gets `startTime = 5 > 3 = endTime`, refuting the claimed invariant
`start ≤ end`. -/
theorem c3_counterexample :
    List.Pairwise (fun a b : Segment => a.start ≤ b.start)
      [({ text := "hello", start := 5, stop := 3, confidence := 1 } : Segment)] ∧
    ¬ (∀ c ∈ chunkText ["hello"] "hello"
        [({ text := "hello", start := 5, stop := 3, confidence := 1 } : Segment)],
        c.startTime ≤ c.endTime) := by
  have hct : chunkText ["hello"] "hello"
      [({ text := "hello", start := 5, stop := 3, confidence := 1 } : Segment)] =
      [{ index := 0, text := "hello", length := 5, wordCount := 1,
         startTime := 5, endTime := 3, confidence := 1 }] := by
    simp +decide [chunkText, chunkTextAux, mapChunkToTimestamps, stringIndexOf,
      indexOfChars, jsTrim, isWs, overlapStep, List.isPrefixOf, String.length,
      countWords, wordsOf, wordsAux, Chunk.mk.injEq]
  refine ⟨by simp, ?_⟩
  intro h
  rw [hct] at h
  have := h _ (List.mem_singleton_self _)
  norm_num at this

/-- **C3** (amended).  For a segment list with non-decreasing start times
in which every segment also satisfies `start ≤ end`, every output chunk
satisfies `startTime ≤ endTime`.  If moreover every trimmed chunk text is
nonempty, is found by the exact substring locate at an offset below the
total segment text length, and those offsets are non-decreasing across
the chunk list, then the chunk start times are non-decreasing. -/
theorem c3_chunker_time_ranges (fullText : String) (segments : List Segment)
    (textChunks : List String)
    (hmono : List.Pairwise (fun a b : Segment => a.start ≤ b.start) segments)
    (hwf : ∀ s ∈ segments, s.start ≤ s.stop) :
    (∀ c ∈ chunkText textChunks fullText segments, c.startTime ≤ c.endTime) ∧
    ((∀ ch ∈ textChunks, 0 < ch.length ∧
        ∃ p, stringIndexOf fullText (jsTrim ch) = some p ∧ p < segTextLen segments) →
      List.Pairwise (fun ch₁ ch₂ : String =>
        (stringIndexOf fullText (jsTrim ch₁)).getD 0 ≤
          (stringIndexOf fullText (jsTrim ch₂)).getD 0) textChunks →
      List.Pairwise (fun a b : Chunk => a.startTime ≤ b.startTime)
        (chunkText textChunks fullText segments)) := by
  constructor
  · intro c hc
    rcases chunkTextAux_mem textChunks 0 c hc with ⟨ch, _, h₁, h₂⟩
    rw [h₁, h₂]
    exact mapChunkToTimestamps_start_le_stop hmono hwf ch fullText
  · intro hfound hposmono
    have hmap := @chunkTextAux_map_startTime fullText segments textChunks 0
    have hpair : List.Pairwise (fun x y : ℚ => x ≤ y)
        (textChunks.map fun ch => (mapChunkToTimestamps ch fullText segments).start) := by
      rw [List.pairwise_map]
      refine hposmono.imp_of_mem ?_
      intro ch₁ ch₂ hm₁ hm₂ hle
      rcases hfound ch₁ hm₁ with ⟨hl₁, p₁, hp₁, hplt₁⟩
      rcases hfound ch₂ hm₂ with ⟨hl₂, p₂, hp₂, hplt₂⟩
      rw [hp₁, hp₂] at hle
      simp only [Option.getD_some] at hle
      exact mapChunkToTimestamps_start_mono hmono hl₁ hl₂ hp₁ hp₂ hle hplt₂
    rw [← hmap, List.pairwise_map] at hpair
    simpa [chunkText] using hpair

/-- Witness for `c3_chunker_time_ranges` at a concrete transcript. -/
theorem c3_chunker_time_ranges_witness :
    (∀ c ∈ chunkText ["ab", "cd"] "ab cd"
        [({ text := "ab ", start := 0, stop := 1, confidence := 1 } : Segment),
         ({ text := "cd", start := 2, stop := 3, confidence := 1 } : Segment)],
      c.startTime ≤ c.endTime) ∧
    List.Pairwise (fun a b : Chunk => a.startTime ≤ b.startTime)
      (chunkText ["ab", "cd"] "ab cd"
        [({ text := "ab ", start := 0, stop := 1, confidence := 1 } : Segment),
         ({ text := "cd", start := 2, stop := 3, confidence := 1 } : Segment)]) := by
  have h := c3_chunker_time_ranges "ab cd"
    [({ text := "ab ", start := 0, stop := 1, confidence := 1 } : Segment),
     ({ text := "cd", start := 2, stop := 3, confidence := 1 } : Segment)]
    ["ab", "cd"] (by decide) (by decide)
  refine ⟨h.1, h.2 ?_ ?_⟩
  · intro ch hch
    simp only [List.mem_cons, List.not_mem_nil, or_false] at hch
    rcases hch with rfl | rfl
    · exact ⟨by decide, 0, by decide, by decide⟩
    · exact ⟨by decide, 3, by decide, by decide⟩
  · decide

/-- **C4**: timestamp reconciliation of a chunk.  (1) An exact substring
locate of the trimmed chunk walks the segments by character offset and
returns first-overlap start, last-overlap end and the average overlap
confidence; (2) otherwise the first five whitespace-delimited words are
located and the containing segment is returned with confidence × 0.7;
(3) if both locates fail the result is `{start 0, end 0, confidence 0}`
(no error is raised — the function is total). -/
theorem c4_timestamp_reconciliation (chunk fullText : String)
    (segments : List Segment) :
    (∀ p, stringIndexOf fullText (jsTrim chunk) = some p →
      segments ≠ [] →
      ∀ a b, (overlapSegs p (p + chunk.length) segments 0).head? = some a →
        (overlapSegs p (p + chunk.length) segments 0).getLast? = some b →
        mapChunkToTimestamps chunk fullText segments =
          { start := a.start
            stop := b.stop
            confidence := ((overlapSegs p (p + chunk.length) segments 0).map
                Segment.confidence).sum /
              ((overlapSegs p (p + chunk.length) segments 0).length : ℚ) }) ∧
    (stringIndexOf fullText (jsTrim chunk) = none →
      ∀ q seg,
        indexOfChars (joinSpace ((wordsOf (jsTrim chunk).data).take 5))
          fullText.data = some q →
        containingSegment q segments 0 = some seg →
        mapChunkToTimestamps chunk fullText segments =
          { start := seg.start, stop := seg.stop,
            confidence := seg.confidence * (7 / 10) }) ∧
    (stringIndexOf fullText (jsTrim chunk) = none →
      indexOfChars (joinSpace ((wordsOf (jsTrim chunk).data).take 5))
        fullText.data = none →
      mapChunkToTimestamps chunk fullText segments = ⟨0, 0, 0⟩) := by
  refine ⟨?_, ?_, ?_⟩
  · intro p hp hne a b ha hb
    have hlen : 0 < (overlapSegs p (p + chunk.length) segments 0).length := by
      rcases hov : overlapSegs p (p + chunk.length) segments 0 with _ | ⟨x, xs⟩
      · rw [hov] at ha; simp at ha
      · simp
    rw [mapChunkToTimestamps_exact hne hp]
    simp [ha, hb, hlen]
  · intro hidx q seg hq hcont
    have hemp : segments.isEmpty = false := by
      cases segments with
      | nil => simp [containingSegment] at hcont
      | cons s l => rfl
    simp only [mapChunkToTimestamps, hemp, Bool.false_eq_true, if_false, hidx,
      findApproximateTimestamps, hq, hcont]
  · intro hidx hq
    cases segments with
    | nil => simp [mapChunkToTimestamps]
    | cons s l =>
      simp only [mapChunkToTimestamps, List.isEmpty_cons, Bool.false_eq_true,
        if_false, hidx, findApproximateTimestamps, hq]

/-- Witness for `c4_timestamp_reconciliation` on the exact-locate path:
two segments overlap the chunk, so the chunk gets the first start (0),
the last end (3) and the average confidence ((1+1)/2 = 1). -/
theorem c4_timestamp_reconciliation_witness :
    mapChunkToTimestamps "ab cd" "ab cd"
      [({ text := "ab ", start := 0, stop := 1, confidence := 1 } : Segment),
       ({ text := "cd", start := 2, stop := 3, confidence := 1 } : Segment)] =
      ⟨0, 3, 1⟩ := by
  have h := (c4_timestamp_reconciliation "ab cd" "ab cd"
    [({ text := "ab ", start := 0, stop := 1, confidence := 1 } : Segment),
     ({ text := "cd", start := 2, stop := 3, confidence := 1 } : Segment)]).1
    0 (by decide) (by decide)
    ({ text := "ab ", start := 0, stop := 1, confidence := 1 } : Segment)
    ({ text := "cd", start := 2, stop := 3, confidence := 1 } : Segment)
    (by decide) (by decide)
  rw [h]
  have hov : overlapSegs 0 (0 + "ab cd".length)
      [({ text := "ab ", start := 0, stop := 1, confidence := 1 } : Segment),
       ({ text := "cd", start := 2, stop := 3, confidence := 1 } : Segment)] 0 =
      [({ text := "ab ", start := 0, stop := 1, confidence := 1 } : Segment),
       ({ text := "cd", start := 2, stop := 3, confidence := 1 } : Segment)] := by
    decide
  rw [hov]
  simp [ChunkTimestamps.mk.injEq]

/-! ## Time formatting and parsing (chat route utilities)
`formatTime` / `parseTimeString` of the chat router (src/server/routes). -/

/-- Decimal digit character, as produced by JS `Number.prototype.toString`
for values below 10. -/
def digitChar : Nat → Char
  | 0 => '0' | 1 => '1' | 2 => '2' | 3 => '3' | 4 => '4'
  | 5 => '5' | 6 => '6' | 7 => '7' | 8 => '8' | 9 => '9'
  | _ => '?'

/-- JS `n.toString()` for a natural number (decimal rendering; `[]` for 0,
which `pad2` turns into "00" exactly as padStart does with "0"). -/
def natToChars (n : Nat) : List Char :=
  (Nat.digits 10 n).reverse.map digitChar

/-- JS `n.toString().padStart(2, '0')`. -/
def pad2 (n : Nat) : List Char :=
  List.replicate (2 - (natToChars n).length) '0' ++ natToChars n

/-- Numeric value of a decimal digit character. -/
def digitVal (c : Char) : Nat := c.toNat - '0'.toNat

/-- JS `Number(s)` on the decimal-digit strings this code produces. -/
def parseDigits (l : List Char) : Nat :=
  l.foldl (fun acc c => 10 * acc + digitVal c) 0

/-- JS `%` (remainder) on the nonnegative operands used here. -/
def qmod (a b : ℚ) : ℚ := a - b * (⌊a / b⌋ : ℚ)

/-- `formatTime` (chat router): `'00:00'` for zero/negative input, else
`MM:SS`, or `HH:MM:SS` when at least one full hour. -/
def formatTime (seconds : ℚ) : String :=
  if seconds = 0 ∨ seconds < 0 then "00:00"
  else
    let hours : Nat := (⌊seconds / 3600⌋).toNat
    let minutes : Nat := (⌊qmod seconds 3600 / 60⌋).toNat
    let secs : Nat := (⌊qmod seconds 60⌋).toNat
    if hours > 0 then
      ⟨pad2 hours ++ ':' :: (pad2 minutes ++ ':' :: pad2 secs)⟩
    else ⟨pad2 minutes ++ ':' :: pad2 secs⟩

/-- Helper for `splitColon` (accumulates the current field reversed). -/
def splitColonAux : List Char → List Char → List (List Char)
  | [], cur => [cur.reverse]
  | c :: t, cur =>
    if c = ':' then cur.reverse :: splitColonAux t []
    else splitColonAux t (c :: cur)

/-- JS `s.split(':')`. -/
def splitColon (l : List Char) : List (List Char) := splitColonAux l []

/-- Core of `parseTimeString` on the character list. -/
def parseTimeChars (l : List Char) : ℚ :=
  match (splitColon l).map parseDigits with
  | [p₀, p₁] => ((p₀ * 60 + p₁ : Nat) : ℚ)
  | [p₀, p₁, p₂] => ((p₀ * 3600 + p₁ * 60 + p₂ : Nat) : ℚ)
  | _ => 0

/-- `parseTimeString` (chat router): `MM:SS` or `HH:MM:SS` to seconds,
`0` for anything else. -/
def parseTimeString (timeString : String) : ℚ :=
  parseTimeChars timeString.data

theorem stringData_mk (l : List Char) : (⟨l⟩ : String).data = l := rfl

theorem digitVal_digitChar {d : Nat} (hd : d < 10) :
    digitVal (digitChar d) = d := by
  interval_cases d <;> decide

theorem digitChar_ne_colon (d : Nat) : digitChar d ≠ ':' := by
  unfold digitChar
  split <;> decide

theorem parseDigits_replicate_zero (k : Nat) (l : List Char) :
    parseDigits (List.replicate k '0' ++ l) = parseDigits l := by
  induction k with
  | zero => rfl
  | succ n ih =>
    simp only [List.replicate_succ, List.cons_append, parseDigits,
      List.foldl_cons] at ih ⊢
    simpa [digitVal] using ih

theorem foldr_digits_eq_ofDigits :
    ∀ ds : List Nat, (∀ d ∈ ds, d < 10) →
      ds.foldr (fun d acc => 10 * acc + digitVal (digitChar d)) 0 =
        Nat.ofDigits 10 ds := by
  intro ds
  induction ds with
  | nil => intro _; rfl
  | cons d t ih =>
    intro h
    simp only [List.foldr_cons, Nat.ofDigits_cons,
      ih fun x hx => h x (List.mem_cons_of_mem _ hx),
      digitVal_digitChar (h d (List.mem_cons_self _ _))]
    omega

theorem parseDigits_natToChars (n : Nat) : parseDigits (natToChars n) = n := by
  have hlt : ∀ d ∈ Nat.digits 10 n, d < 10 := fun d hd =>
    Nat.digits_lt_base (by norm_num) hd
  calc parseDigits (natToChars n)
      = ((Nat.digits 10 n).map digitChar).reverse.foldl
          (fun acc c => 10 * acc + digitVal c) 0 := by
        simp [natToChars, parseDigits, List.map_reverse]
    _ = (Nat.digits 10 n).foldr
          (fun d acc => 10 * acc + digitVal (digitChar d)) 0 := by
        rw [List.foldl_reverse, List.foldr_map]
    _ = Nat.ofDigits 10 (Nat.digits 10 n) := foldr_digits_eq_ofDigits _ hlt
    _ = n := Nat.ofDigits_digits 10 n

theorem parseDigits_pad2 (n : Nat) : parseDigits (pad2 n) = n := by
  rw [pad2, parseDigits_replicate_zero, parseDigits_natToChars]

theorem pad2_ne_colon (n : Nat) : ∀ c ∈ pad2 n, c ≠ ':' := by
  intro c hc
  rcases List.mem_append.mp hc with h | h
  · rw [List.eq_of_mem_replicate h]; decide
  · rcases List.mem_map.mp h with ⟨d, _, hd⟩
    exact hd ▸ digitChar_ne_colon d

theorem splitColonAux_no_colon :
    ∀ (l cur : List Char), (∀ c ∈ l, c ≠ ':') →
      splitColonAux l cur = [cur.reverse ++ l] := by
  intro l
  induction l with
  | nil => intro cur _; simp [splitColonAux]
  | cons c t ih =>
    intro cur h
    rw [splitColonAux, if_neg (h c (List.mem_cons_self _ _)),
      ih (c :: cur) fun x hx => h x (List.mem_cons_of_mem _ hx)]
    simp

theorem splitColonAux_append_colon :
    ∀ (l₁ : List Char) (cur l₂ : List Char), (∀ c ∈ l₁, c ≠ ':') →
      splitColonAux (l₁ ++ ':' :: l₂) cur =
        (cur.reverse ++ l₁) :: splitColonAux l₂ [] := by
  intro l₁
  induction l₁ with
  | nil => intro cur l₂ _; simp [splitColonAux]
  | cons c t ih =>
    intro cur l₂ h
    rw [List.cons_append, splitColonAux,
      if_neg (h c (List.mem_cons_self _ _)),
      ih (c :: cur) l₂ fun x hx => h x (List.mem_cons_of_mem _ hx)]
    simp

theorem splitColon_three_fields (l₁ l₂ l₃ : List Char)
    (h₁ : ∀ c ∈ l₁, c ≠ ':') (h₂ : ∀ c ∈ l₂, c ≠ ':') (h₃ : ∀ c ∈ l₃, c ≠ ':') :
    splitColon (l₁ ++ ':' :: (l₂ ++ ':' :: l₃)) = [l₁, l₂, l₃] := by
  rw [splitColon, splitColonAux_append_colon _ _ _ h₁,
    splitColonAux_append_colon _ _ _ h₂, splitColonAux_no_colon _ _ h₃]
  simp

theorem splitColon_two_fields (l₁ l₂ : List Char)
    (h₁ : ∀ c ∈ l₁, c ≠ ':') (h₂ : ∀ c ∈ l₂, c ≠ ':') :
    splitColon (l₁ ++ ':' :: l₂) = [l₁, l₂] := by
  rw [splitColon, splitColonAux_append_colon _ _ _ h₁,
    splitColonAux_no_colon _ _ h₂]
  simp

/-- **C10**: for every non-negative integer number of seconds,
`parseTimeString (formatTime s) = s`: the formatter emits `MM:SS` below
one hour and `HH:MM:SS` from one hour on, and the parser inverts both. -/
theorem c10_time_roundtrip (s : Nat) :
    parseTimeString (formatTime (s : ℚ)) = (s : ℚ) := by
  have hq3600 : qmod (s : ℚ) 3600 = ((s % 3600 : ℕ) : ℚ) := by
    have h₁ : ⌊(s : ℚ) / 3600⌋ = ((s / 3600 : ℕ) : ℤ) := by
      rw [← Int.natCast_floor_eq_floor (by positivity),
        show ((3600 : ℚ)) = ((3600 : ℕ) : ℚ) by norm_num,
        Nat.floor_div_nat, Nat.floor_natCast]
    rw [qmod, h₁, Int.cast_natCast]
    have hmd : ((s % 3600 : ℕ) : ℚ) + 3600 * ((s / 3600 : ℕ) : ℚ) = (s : ℚ) := by
      exact_mod_cast congrArg (fun n : ℕ => (n : ℚ)) (Nat.mod_add_div s 3600)
    linarith
  have hq60 : qmod (s : ℚ) 60 = ((s % 60 : ℕ) : ℚ) := by
    have h₁ : ⌊(s : ℚ) / 60⌋ = ((s / 60 : ℕ) : ℤ) := by
      rw [← Int.natCast_floor_eq_floor (by positivity),
        show ((60 : ℚ)) = ((60 : ℕ) : ℚ) by norm_num,
        Nat.floor_div_nat, Nat.floor_natCast]
    rw [qmod, h₁, Int.cast_natCast]
    have hmd : ((s % 60 : ℕ) : ℚ) + 60 * ((s / 60 : ℕ) : ℚ) = (s : ℚ) := by
      exact_mod_cast congrArg (fun n : ℕ => (n : ℚ)) (Nat.mod_add_div s 60)
    linarith
  have hh : (⌊(s : ℚ) / 3600⌋).toNat = s / 3600 := by
    rw [Int.floor_toNat, show ((3600 : ℚ)) = ((3600 : ℕ) : ℚ) by norm_num,
      Nat.floor_div_nat, Nat.floor_natCast]
  have hm : (⌊qmod (s : ℚ) 3600 / 60⌋).toNat = s % 3600 / 60 := by
    rw [hq3600, Int.floor_toNat, show ((60 : ℚ)) = ((60 : ℕ) : ℚ) by norm_num,
      Nat.floor_div_nat, Nat.floor_natCast]
  have hsec : (⌊qmod (s : ℚ) 60⌋).toNat = s % 60 := by
    rw [hq60, Int.floor_toNat, Nat.floor_natCast]
  rcases Nat.eq_zero_or_pos s with rfl | hs
  · rw [show formatTime ((0 : ℕ) : ℚ) = "00:00" from
      by rw [formatTime, if_pos (Or.inl (by norm_num))]]
    show parseTimeChars ("00:00".data) = _
    rw [show ("00:00".data) =
      (['0', '0'] ++ ':' :: ['0', '0']) from rfl]
    rw [parseTimeChars, splitColon_two_fields _ _ (by decide) (by decide)]
    simp [parseDigits, digitVal]
  · have hcond : ¬ ((s : ℚ) = 0 ∨ (s : ℚ) < 0) := by
      push_neg
      exact ⟨by exact_mod_cast hs.ne.symm, by positivity⟩
    simp only [formatTime, if_neg hcond, hh, hm, hsec]
    by_cases hH : 0 < s / 3600
    · rw [if_pos hH]
      show parseTimeChars _ = _
      rw [stringData_mk, parseTimeChars,
        splitColon_three_fields _ _ _ (pad2_ne_colon _) (pad2_ne_colon _)
          (pad2_ne_colon _)]
      simp only [List.map_cons, List.map_nil, parseDigits_pad2]
      rw [Nat.cast_inj]
      omega
    · rw [if_neg hH]
      show parseTimeChars _ = _
      rw [stringData_mk, parseTimeChars,
        splitColon_two_fields _ _ (pad2_ne_colon _) (pad2_ne_colon _)]
      simp only [List.map_cons, List.map_nil, parseDigits_pad2]
      rw [Nat.cast_inj]
      omega

/-! ## Citation extraction (chat route `extractTimestamps`)

The AI answer is scanned for `[MM:SS]` / `[HH:MM:SS]` tokens
(regex `\[(\d{1,2}:\d{2}(?::\d{2})?)\]`, global), each token is
attributed to the first context chunk whose time interval contains it,
a per-chunk fallback fires when no token citation results, and entries
within 5 seconds of an earlier one are dropped. -/

/-- Context chunk prepared from a search result in `generateRAGResponse`. -/
structure ContextChunk where
  index : Nat
  text : String
  startTime : ℚ
  endTime : ℚ
  confidence : ℚ
  score : ℚ
deriving DecidableEq, Repr

/-- Entry pushed on the `timestamps` array of `extractTimestamps`. -/
structure TimestampEntry where
  time : ℚ
  timeString : String
  text : String
  startTime : ℚ
  endTime : ℚ
deriving DecidableEq, Repr

/-- Regex `\d`. -/
def isDigit (c : Char) : Bool := '0' ≤ c && c ≤ '9'

/-- After `\d{1,2}:\d{2}`: the optional `(?::\d{2})?` then the closing
bracket, with the regex backtracking (a matched optional group is given
up when no `]` follows). Returns captured group and remainder. -/
def matchOptSS (pre : List Char) : List Char → Option (List Char × List Char)
  | ':' :: e :: f :: ']' :: t =>
    if isDigit e && isDigit f then some (pre ++ ':' :: [e, f], t) else none
  | ']' :: t => some (pre, t)
  | _ => none

/-- The `:\d{2}` part after the leading digits. -/
def matchColonSS (pre : List Char) : List Char → Option (List Char × List Char)
  | ':' :: c :: d :: t =>
    if isDigit c && isDigit d then matchOptSS (pre ++ ':' :: [c, d]) t else none
  | _ => none

/-- The leading `\d{1,2}` (greedy, with the one-digit backtrack, which
can never succeed after a two-digit failure since the second character
is then a digit and not `:`). -/
def matchHourMin : List Char → Option (List Char × List Char)
  | a :: b :: t =>
    if isDigit a && isDigit b then matchColonSS [a, b] t
    else if isDigit a then matchColonSS [a] (b :: t)
    else none
  | [a] => if isDigit a then matchColonSS [a] [] else none
  | [] => none

/-- One attempted match of the timestamp regex at the current position. -/
def matchTimestampAt : List Char → Option (List Char × List Char)
  | '[' :: rest => matchHourMin rest
  | _ => none

theorem matchOptSS_len (pre : List Char) :
    ∀ (l tok rest : List Char), matchOptSS pre l = some (tok, rest) →
      rest.length ≤ l.length := by
  intro l tok rest h
  unfold matchOptSS at h
  split at h
  · split at h
    · simp only [Option.some.injEq, Prod.mk.injEq] at h
      obtain ⟨h1, h2⟩ := h
      subst h2
      simp only [List.length_cons]
      omega
    · simp at h
  · simp only [Option.some.injEq, Prod.mk.injEq] at h
    obtain ⟨h1, h2⟩ := h
    subst h2
    simp only [List.length_cons]
    omega
  · simp at h

theorem matchColonSS_len (pre : List Char) :
    ∀ (l tok rest : List Char), matchColonSS pre l = some (tok, rest) →
      rest.length ≤ l.length := by
  intro l tok rest h
  unfold matchColonSS at h
  split at h
  · split at h
    · have := matchOptSS_len _ _ _ _ h
      simp only [List.length_cons] at this ⊢
      omega
    · simp at h
  · simp at h

theorem matchHourMin_len :
    ∀ (l tok rest : List Char), matchHourMin l = some (tok, rest) →
      rest.length ≤ l.length := by
  intro l tok rest h
  unfold matchHourMin at h
  split at h
  · split at h
    · have := matchColonSS_len _ _ _ _ h
      simp only [List.length_cons] at this ⊢
      omega
    · split at h
      · have := matchColonSS_len _ _ _ _ h
        simp only [List.length_cons] at this ⊢
        omega
      · simp at h
  · split at h
    · have := matchColonSS_len _ _ _ _ h
      simp only [List.length_cons] at this ⊢
      omega
    · simp at h
  · simp at h

theorem matchTimestampAt_lt :
    ∀ (l tok rest : List Char), matchTimestampAt l = some (tok, rest) →
      rest.length < l.length := by
  intro l tok rest h
  unfold matchTimestampAt at h
  split at h
  · have := matchHourMin_len _ _ _ h
    simp only [List.length_cons] at this ⊢
    omega
  · simp at h

/-- The `while ((match = timestampRegex.exec(response)) !== null)` loop,
structurally recursive on a length bound: every loop step consumes at
least one character (`matchTimestampAt_lt`), so a bound of `l.length`
never runs out and the function computes exactly the loop. -/
def scanTimestampsFuel : Nat → List Char → List (List Char)
  | 0, _ => []
  | _ + 1, [] => []
  | fuel + 1, c :: t =>
    match matchTimestampAt (c :: t) with
    | some (tok, rest) => tok :: scanTimestampsFuel fuel rest
    | none => scanTimestampsFuel fuel t

/-- Captured groups of all regex matches in the response, left to right. -/
def scanTimestamps (l : List Char) : List (List Char) :=
  scanTimestampsFuel l.length l

/-- The length bound is irrelevant as long as it is sufficient, so
`scanTimestamps` is the plain loop. -/
theorem scanTimestampsFuel_congr :
    ∀ (fuel₁ fuel₂ : Nat) (l : List Char), l.length ≤ fuel₁ → l.length ≤ fuel₂ →
      scanTimestampsFuel fuel₁ l = scanTimestampsFuel fuel₂ l := by
  intro fuel₁
  induction fuel₁ with
  | zero =>
    intro fuel₂ l h₁ h₂
    have : l = [] := List.length_eq_zero.mp (Nat.le_zero.mp h₁)
    subst this
    cases fuel₂ <;> rfl
  | succ f ih =>
    intro fuel₂ l h₁ h₂
    cases l with
    | nil => cases fuel₂ <;> rfl
    | cons c t =>
      cases fuel₂ with
      | zero => simp at h₂
      | succ f₂ =>
        simp only [scanTimestampsFuel]
        cases hm : matchTimestampAt (c :: t) with
        | none =>
          simp only [List.length_cons] at h₁ h₂
          exact ih f₂ t (by omega) (by omega)
        | some pr =>
          obtain ⟨tok, rest⟩ := pr
          have hlt := matchTimestampAt_lt _ _ _ hm
          simp only [List.length_cons] at h₁ h₂ hlt
          simp [ih f₂ rest (by omega) (by omega)]

/-- JS `Array.prototype.findIndex` (first index satisfying `p`),
with running index. -/
def jsFindIndexFrom {α : Type} (p : α → Bool) : List α → Nat → Option Nat
  | [], _ => none
  | a :: t, i => if p a then some i else jsFindIndexFrom p t (i + 1)

/-- JS `l.findIndex(p)` (`none` for -1). -/
def jsFindIndex {α : Type} (p : α → Bool) (l : List α) : Option Nat :=
  jsFindIndexFrom p l 0

/-- The dedup predicate `Math.abs(t.time - timestamp.time) < 5`. -/
def within5 (t b : TimestampEntry) : Bool := decide (|t.time - b.time| < 5)

/-- The dedup `filter((timestamp, index, self) => index === self.findIndex ...)`
with its running element index. -/
def dedupeAux (l : List TimestampEntry) :
    Nat → List TimestampEntry → List TimestampEntry
  | _, [] => []
  | i, b :: rest =>
    if jsFindIndex (fun t => within5 t b) l = some i then
      b :: dedupeAux l (i + 1) rest
    else dedupeAux l (i + 1) rest

/-- Deduplication of citations: keep an entry iff it is the first within
5 seconds of itself. -/
def dedupeWithin5 (l : List TimestampEntry) : List TimestampEntry :=
  dedupeAux l 0 l

/-- The token-scan half of `extractTimestamps`: every parsed `[..]` token,
attributed to the first context chunk containing its time; tokens with no
containing chunk are dropped. -/
def tokenCitations (response : String) (context : List ContextChunk) :
    List TimestampEntry :=
  (scanTimestamps response.data).filterMap fun tok =>
    let timeString : String := ⟨tok⟩
    let seconds := parseTimeString timeString
    (context.find? fun chunk =>
      decide (seconds ≥ chunk.startTime ∧ seconds ≤ chunk.endTime)).map fun chunk =>
      { time := seconds
        timeString := timeString
        text := jsSubstringTo chunk.text 100 ++ "..."
        startTime := chunk.startTime
        endTime := chunk.endTime }

/-- The per-chunk fallback of `extractTimestamps` (`chunk.endTime || startTime
+ 30` is the JS falsy check, hence the `= 0` test; chunks with negative
start are skipped by `if (startTime >= 0)`). -/
def fallbackCitations (context : List ContextChunk) : List TimestampEntry :=
  context.filterMap fun chunk =>
    let startTime := chunk.startTime
    let endTime := if chunk.endTime = 0 then startTime + 30 else chunk.endTime
    if startTime ≥ 0 then
      some { time := startTime
             timeString := formatTime startTime
             text := jsSubstringTo chunk.text 100 ++ "..."
             startTime := startTime
             endTime := endTime }
    else none

/-- `extractTimestamps` (chat route): token citations, the per-chunk
fallback when none resulted and the context is non-empty, then the 5-second
dedup. -/
def extractTimestamps (response : String) (context : List ContextChunk) :
    List TimestampEntry :=
  let timestamps := tokenCitations response context
  dedupeWithin5
    (if timestamps = [] ∧ context ≠ [] then fallbackCitations context
     else timestamps)

theorem jsFindIndexFrom_first {α : Type} (p : α → Bool) :
    ∀ (l : List α) (i j : Nat), jsFindIndexFrom p l i = some j →
      ∀ (k : Nat) (x : α), i + k < j → l.get? k = some x → p x = false := by
  intro l
  induction l with
  | nil => intro i j h k x _ hg; simp at hg
  | cons a t ih =>
    intro i j h k x hk hg
    rw [jsFindIndexFrom] at h
    split at h
    case isTrue hpa =>
      have := Option.some_inj.mp h
      omega
    case isFalse hpa =>
      cases k with
      | zero =>
        simp only [List.get?_cons_zero, Option.some_inj] at hg
        rw [← hg]
        revert hpa
        cases p a <;> simp
      | succ k =>
        exact ih (i + 1) j h k x (by omega)
          (by simpa using hg)

theorem jsFindIndex_first {α : Type} (p : α → Bool) (l : List α) (j : Nat)
    (h : jsFindIndex p l = some j) :
    ∀ (k : Nat) (x : α), k < j → l.get? k = some x → p x = false :=
  fun k x hk hg => jsFindIndexFrom_first p l 0 j h k x (by omega) hg

theorem dedupeAux_mem (l : List TimestampEntry) :
    ∀ (rest : List TimestampEntry) (i : Nat) (b : TimestampEntry),
      b ∈ dedupeAux l i rest →
      ∃ j, i ≤ j ∧ jsFindIndex (fun t => within5 t b) l = some j := by
  intro rest
  induction rest with
  | nil => intro i b h; simp [dedupeAux] at h
  | cons hd tl ih =>
    intro i b h
    rw [dedupeAux] at h
    split at h
    case isTrue hcond =>
      rcases List.mem_cons.mp h with rfl | hmem
      · exact ⟨i, le_refl i, hcond⟩
      · rcases ih (i + 1) b hmem with ⟨j, hij, hj⟩
        exact ⟨j, by omega, hj⟩
    case isFalse hcond =>
      rcases ih (i + 1) b h with ⟨j, hij, hj⟩
      exact ⟨j, by omega, hj⟩

theorem dedupeAux_pairwise (l : List TimestampEntry) :
    ∀ (rest : List TimestampEntry) (i : Nat), l.drop i = rest →
      List.Pairwise (fun a b => 5 ≤ |a.time - b.time|) (dedupeAux l i rest) := by
  intro rest
  induction rest with
  | nil => intro i _; simp [dedupeAux]
  | cons hd tl ih =>
    intro i hdrop
    have hdrop' : l.drop (i + 1) = tl := by
      have h1 := congrArg (List.drop 1) hdrop
      rw [List.drop_drop] at h1
      simpa using h1
    rw [dedupeAux]
    split
    case isTrue hcond =>
      refine List.pairwise_cons.mpr ⟨?_, ih (i + 1) hdrop'⟩
      intro b hb
      rcases dedupeAux_mem l tl (i + 1) b hb with ⟨j, hij, hj⟩
      have hget : l.get? i = some hd := by
        have h0 := List.get?_drop l i 0
        rw [hdrop] at h0
        simpa using h0.symm
      have hfalse := jsFindIndex_first _ l j hj i hd (by omega) hget
      have hnot : ¬ (|hd.time - b.time| < 5) := by
        simpa [within5] using hfalse
      exact not_lt.mp hnot
    case isFalse hcond => exact ih (i + 1) hdrop'

/-- Any two citations surviving the dedup differ by at least 5 seconds. -/
theorem dedupeWithin5_pairwise (l : List TimestampEntry) :
    List.Pairwise (fun a b => 5 ≤ |a.time - b.time|) (dedupeWithin5 l) :=
  dedupeAux_pairwise l l 0 (List.drop_zero l)

theorem dedupeWithin5_ne_nil {l : List TimestampEntry} (h : l ≠ []) :
    dedupeWithin5 l ≠ [] := by
  cases l with
  | nil => exact absurd rfl h
  | cons b rest =>
    rw [dedupeWithin5, dedupeAux]
    have hbb : within5 b b = true := by
      simp [within5]
    have hcond : jsFindIndex (fun t => within5 t b) (b :: rest) = some 0 := by
      rw [jsFindIndex, jsFindIndexFrom, if_pos hbb]
    rw [if_pos hcond]
    exact List.cons_ne_nil _ _

/-- Each token citation is attributed to a chunk of the context whose
interval contains the token's time. -/
theorem tokenCitations_attribution (response : String)
    (context : List ContextChunk) (e : TimestampEntry)
    (he : e ∈ tokenCitations response context) :
    ∃ c ∈ context, c.startTime ≤ e.time ∧ e.time ≤ c.endTime ∧
      e.startTime = c.startTime ∧ e.endTime = c.endTime := by
  rw [tokenCitations] at he
  rcases List.mem_filterMap.mp he with ⟨tok, _, hf⟩
  rcases Option.map_eq_some'.mp hf with ⟨c, hfind, hc⟩
  have hmem := List.mem_of_find?_eq_some hfind
  have hpred := List.find?_some hfind
  simp only [decide_eq_true_eq] at hpred
  refine ⟨c, hmem, ?_, ?_, ?_, ?_⟩ <;>
    rw [← hc] <;> first | exact hpred.1 | exact hpred.2

/-- **C6**: citation extraction parses bracketed `[MM:SS]` / `[HH:MM:SS]`
tokens, attributes each to the (first) context chunk whose interval
contains the token's time, discards tokens with no containing chunk, and
collapses citations within 5 seconds keeping the first occurrence.
Concretely, `[05:30]` against a chunk spanning 300–360 yields exactly one
citation for that chunk and `[05:32]` collapses into it; in general every
token citation lies in its chunk's interval and any two surviving
citations are at least 5 seconds apart. -/
theorem c6_citation_extraction :
    extractTimestamps
        "The concept is explained at [05:30] and again at [05:32] today."
        [{ index := 1, text := "chunk text", startTime := 300, endTime := 360,
           confidence := 1, score := 1/2 }] =
      [{ time := 330, timeString := "05:30", text := "chunk text...",
         startTime := 300, endTime := 360 }] ∧
    (∀ (response : String) (context : List ContextChunk) (e : TimestampEntry),
      e ∈ tokenCitations response context →
      ∃ c ∈ context, c.startTime ≤ e.time ∧ e.time ≤ c.endTime ∧
        e.startTime = c.startTime ∧ e.endTime = c.endTime) ∧
    (∀ (response : String) (context : List ContextChunk),
      List.Pairwise (fun a b => 5 ≤ |a.time - b.time|)
        (extractTimestamps response context)) := by
  refine ⟨?_, tokenCitations_attribution, fun r ctx => dedupeWithin5_pairwise _⟩
  have htok : tokenCitations
      "The concept is explained at [05:30] and again at [05:32] today."
      [{ index := 1, text := "chunk text", startTime := 300, endTime := 360,
         confidence := 1, score := 1/2 }] =
      [{ time := 330, timeString := "05:30", text := "chunk text...",
         startTime := 300, endTime := 360 },
       { time := 332, timeString := "05:32", text := "chunk text...",
         startTime := 300, endTime := 360 }] := by
    decide
  have h11 : within5
      { time := 330, timeString := "05:30", text := "chunk text...",
        startTime := 300, endTime := 360 }
      { time := 330, timeString := "05:30", text := "chunk text...",
        startTime := 300, endTime := 360 } = true := by
    norm_num [within5]
  have h12 : within5
      { time := 330, timeString := "05:30", text := "chunk text...",
        startTime := 300, endTime := 360 }
      { time := 332, timeString := "05:32", text := "chunk text...",
        startTime := 300, endTime := 360 } = true := by
    norm_num [within5]
  show dedupeWithin5 _ = _
  rw [htok]
  simp only [List.cons_ne_nil, false_and, if_false, ne_eq]
  simp [dedupeWithin5, dedupeAux, jsFindIndex, jsFindIndexFrom, h11, h12]

/-- Witness for `c6_citation_extraction`: the `[05:30]` token citation of
the concrete example is attributed to the 300–360 chunk. -/
theorem c6_citation_extraction_witness :
    ∃ c ∈ [({ index := 1, text := "chunk text", startTime := 300,
              endTime := 360, confidence := 1, score := 1/2 } : ContextChunk)],
      c.startTime ≤ (330 : ℚ) ∧ (330 : ℚ) ≤ c.endTime ∧
        (300 : ℚ) = c.startTime ∧ (360 : ℚ) = c.endTime :=
  c6_citation_extraction.2.1
    "The concept is explained at [05:30] and again at [05:32] today."
    [{ index := 1, text := "chunk text", startTime := 300, endTime := 360,
       confidence := 1, score := 1/2 }]
    { time := 330, timeString := "05:30", text := "chunk text...",
      startTime := 300, endTime := 360 }
    (by decide)

/-- C9, counterexample: a context chunk with negative start time defeats
the per-chunk fallback (`if (startTime >= 0)` skips it), so a non-empty
context can still produce zero citations. -/
theorem c9_counterexample :
    ([({ index := 1, text := "t", startTime := -1, endTime := -1,
          confidence := 0, score := 0 } : ContextChunk)] ≠ []) ∧
    extractTimestamps "hi"
      [{ index := 1, text := "t", startTime := -1, endTime := -1,
          confidence := 0, score := 0 }] = [] := by
  constructor
  · simp
  · decide

/-- **C9** (amended).  For every answer string and every context list
containing at least one chunk with non-negative start time, citation
extraction returns at least one citation; whenever the token scan
produces no attributed citation (no parseable token, or every token
missing all chunk intervals alike), the result is exactly the deduped
per-chunk fallback. -/
theorem c9_fallback_citations (response : String) (context : List ContextChunk)
    (hpos : ∃ c ∈ context, 0 ≤ c.startTime) :
    extractTimestamps response context ≠ [] ∧
    (tokenCitations response context = [] →
      extractTimestamps response context =
        dedupeWithin5 (fallbackCitations context)) := by
  have hctx : context ≠ [] := by
    rcases hpos with ⟨c, hc, _⟩
    intro h
    rw [h] at hc
    simp at hc
  constructor
  · show dedupeWithin5
      (if tokenCitations response context = [] ∧ context ≠ [] then
        fallbackCitations context else tokenCitations response context) ≠ []
    by_cases htok : tokenCitations response context = []
    · rw [if_pos ⟨htok, hctx⟩]
      apply dedupeWithin5_ne_nil
      rcases hpos with ⟨c, hc, hge⟩
      intro hnil
      rw [fallbackCitations] at hnil
      have hcn := (List.filterMap_eq_nil.mp hnil) c hc
      simp only [ge_iff_le, hge, if_true] at hcn
      exact Option.some_ne_none _ hcn
    · rw [if_neg (fun hcontra => htok hcontra.1)]
      exact dedupeWithin5_ne_nil htok
  · intro htok
    show dedupeWithin5
      (if tokenCitations response context = [] ∧ context ≠ [] then
        fallbackCitations context else tokenCitations response context) = _
    rw [if_pos ⟨htok, hctx⟩]

/-- Witness for `c9_fallback_citations` at a concrete context. -/
theorem c9_fallback_citations_witness :
    extractTimestamps "hello"
      [{ index := 1, text := "t", startTime := 2, endTime := 3,
         confidence := 1, score := 1 }] ≠ [] :=
  (c9_fallback_citations "hello" _
    ⟨{ index := 1, text := "t", startTime := 2, endTime := 3,
       confidence := 1, score := 1 }, by simp, by decide⟩).1

/-! ## RAG retrieval flow (`generateRAGResponse`, chat route)

The Pinecone similarity search and the OpenAI generation call are
external services, passed as the parameters `search` (already filtered
to the recording's videoId) and `gen`. -/

/-- Options of a `searchSimilar` call (the videoId filter is part of the
`search` oracle). -/
structure SearchOpts where
  topK : Nat
  minScore : ℚ
deriving DecidableEq, Repr

/-- Metadata of a Pinecone match. -/
structure SearchResultMeta where
  text : String
  startTime : ℚ
  endTime : ℚ
  confidence : ℚ
deriving DecidableEq, Repr

/-- A Pinecone match as returned by `searchSimilar`. -/
structure SearchResult where
  id : String
  score : ℚ
  metadata : SearchResultMeta
deriving DecidableEq, Repr

/-- An entry of the `sources` array of the chat response. -/
structure RagSource where
  text : String
  startTime : ℚ
  endTime : ℚ
  score : ℚ
deriving DecidableEq, Repr

/-- The `{text, timestamps, sources}` object returned by
`generateRAGResponse`. -/
structure RagResponse where
  text : String
  timestamps : List TimestampEntry
  sources : List RagSource
deriving DecidableEq, Repr

/-- A run of `generateRAGResponse`: the searches it issued in order,
whether the generation step ran, and the response. -/
structure RagOutcome where
  queries : List SearchOpts
  generationInvoked : Bool
  response : RagResponse
deriving DecidableEq, Repr

/-- The fixed no-information answer of `generateRAGResponse`. -/
def noInfoAnswer : String :=
  "I couldn\x27t find relevant information in this video to answer your question. This might be because the video hasn\x27t been fully processed yet, or your question is about content not covered in this video. Could you try rephrasing your question or asking about a different topic?"

/-- `searchResults.map((result, index) => ...)`: context chunks numbered
from 1 (`metadata.startTime || 0` etc. are identities on rationals). -/
def buildContext : Nat → List SearchResult → List ContextChunk
  | _, [] => []
  | i, r :: rest =>
    { index := i + 1
      text := r.metadata.text
      startTime := r.metadata.startTime
      endTime := r.metadata.endTime
      confidence := r.metadata.confidence
      score := r.score } :: buildContext (i + 1) rest

/-- Steps 3–5 of `generateRAGResponse` once search results exist: build
the context, generate, extract citations, truncate sources to 200
characters. -/
def ragRespond (queries : List SearchOpts) (results : List SearchResult)
    (gen : List ContextChunk → String) : RagOutcome :=
  let context := buildContext 0 results
  let aiResponse := gen context
  ⟨queries, true,
    ⟨aiResponse, extractTimestamps aiResponse context,
      context.map fun c =>
        ⟨jsSubstringTo c.text 200 ++ "...", c.startTime, c.endTime, c.score⟩⟩⟩

/-- The primary search options `topK: 5, minScore: 0.3`. -/
def primarySearchOpts : SearchOpts := ⟨5, 3 / 10⟩

/-- The fallback search options `topK: 3, minScore: 0.1`. -/
def fallbackSearchOpts : SearchOpts := ⟨3, 1 / 10⟩

/-- `generateRAGResponse`: primary search `topK=5, minScore=0.3`; on zero
matches one fallback search `topK=3, minScore=0.1`; on zero matches again
the fixed answer with empty timestamps and sources, skipping generation
(`searchResults.push(...fallbackResults)` on the empty primary array is
the append below). -/
def generateRAGResponse (search : SearchOpts → List SearchResult)
    (gen : List ContextChunk → String) : RagOutcome :=
  let searchResults := search primarySearchOpts
  if searchResults = [] then
    let fallbackResults := search fallbackSearchOpts
    if fallbackResults = [] then
      ⟨[primarySearchOpts, fallbackSearchOpts], false, ⟨noInfoAnswer, [], []⟩⟩
    else
      ragRespond [primarySearchOpts, fallbackSearchOpts]
        (searchResults ++ fallbackResults) gen
  else
    ragRespond [primarySearchOpts] searchResults gen

/-- **C5**: the retrieval engine queries with `topK=5, minScore=0.3`
first; exactly when that returns zero matches it issues one fallback
query `topK=3, minScore=0.1`; and only when the fallback is also empty
does it return the fixed no-information answer with empty citations and
sources without invoking generation. -/
theorem c5_retrieval_fallback (search : SearchOpts → List SearchResult)
    (gen : List ContextChunk → String) :
    (search primarySearchOpts ≠ [] →
      (generateRAGResponse search gen).queries = [primarySearchOpts] ∧
      (generateRAGResponse search gen).generationInvoked = true) ∧
    (search primarySearchOpts = [] →
      (generateRAGResponse search gen).queries =
        [primarySearchOpts, fallbackSearchOpts]) ∧
    (search primarySearchOpts = [] → search fallbackSearchOpts = [] →
      (generateRAGResponse search gen).generationInvoked = false ∧
      (generateRAGResponse search gen).response.text = noInfoAnswer ∧
      (generateRAGResponse search gen).response.timestamps = [] ∧
      (generateRAGResponse search gen).response.sources = []) ∧
    (search primarySearchOpts = [] → search fallbackSearchOpts ≠ [] →
      (generateRAGResponse search gen).generationInvoked = true) := by
  refine ⟨?_, ?_, ?_, ?_⟩
  · intro h
    simp [generateRAGResponse, ragRespond, h]
  · intro h
    by_cases hfb : search fallbackSearchOpts = [] <;>
      simp [generateRAGResponse, ragRespond, h, hfb]
  · intro h hfb
    simp [generateRAGResponse, ragRespond, h, hfb]
  · intro h hfb
    simp [generateRAGResponse, ragRespond, h, hfb]

/-- Witness for `c5_retrieval_fallback`: both searches empty. -/
theorem c5_retrieval_fallback_witness :
    (generateRAGResponse (fun _ => []) (fun _ => "")).generationInvoked = false ∧
    (generateRAGResponse (fun _ => []) (fun _ => "")).response.text = noInfoAnswer ∧
    (generateRAGResponse (fun _ => []) (fun _ => "")).response.timestamps = [] ∧
    (generateRAGResponse (fun _ => []) (fun _ => "")).response.sources = [] :=
  (c5_retrieval_fallback (fun _ => []) (fun _ => "")).2.2.1 rfl rfl

/-! ## Embedding service (src/server/services/embeddingService.js)

The OpenAI embeddings endpoint is external: `api n` is the outcome of
the (n+1)-st attempt of one logical call; batch and per-item calls get
separate oracles. -/

/-- An embeddings API response: `data[i].embedding` per input index. -/
structure EmbApiResponse where
  data : Nat → List ℚ

/-- `this.maxRetries`. -/
def embMaxRetries : Nat := 3

/-- `this.retryDelay` (milliseconds). -/
def embRetryDelay : Nat := 1000

/-- `callEmbeddingAPI` with its retry loop: the list of backoff delays
awaited (`retryDelay * 2^retryCount`) and the final outcome. -/
def callEmbeddingAPI (api : Nat → Except String EmbApiResponse)
    (retryCount : Nat) : List Nat × Except String EmbApiResponse :=
  match api retryCount with
  | .ok r => ([], .ok r)
  | .error e =>
    if h : retryCount < embMaxRetries then
      let d := embRetryDelay * 2 ^ retryCount
      let res := callEmbeddingAPI api (retryCount + 1)
      (d :: res.1, res.2)
    else ([], .error e)
termination_by embMaxRetries - retryCount
decreasing_by omega

/-- Embedded chunk: the JS spread `{...chunk, embedding, ...}` keeps the
chunk and adds the embedding fields (absent JS fields are `none`). -/
structure EmbeddedChunk where
  chunk : Chunk
  embedding : Option (List ℚ)
  embeddingModel : Option String
  embeddingError : Option String

/-- `this.model`. -/
def embModel : String := "text-embedding-3-large"

/-- `prepareTextForEmbedding`: trim, collapse whitespace runs to single
spaces (which also covers the line-break replace), cap at 8000. -/
def prepareTextForEmbedding (text : String) : String :=
  ⟨(joinSpace (wordsOf (jsTrim text).data)).take 8000⟩

/-- `batch.map((chunk, index) => ({...chunk, embedding:
response.data[index].embedding, ...}))`. -/
def attachEmbeddings (r : Nat → List ℚ) : Nat → List Chunk → List EmbeddedChunk
  | _, [] => []
  | i, c :: rest =>
    ⟨c, some (r i), some embModel, none⟩ :: attachEmbeddings r (i + 1) rest

/-- `processBatch`: one retried API call for the whole batch; on success
every chunk of the batch gets its embedding, otherwise the error
propagates to `generateEmbeddings`. -/
def processBatch (api : Nat → Except String EmbApiResponse)
    (batch : List Chunk) : Except String (List EmbeddedChunk) :=
  match (callEmbeddingAPI api 0).2 with
  | .ok r => .ok (attachEmbeddings r.data 0 batch)
  | .error e => .error e

/-- `processIndividually`: each chunk of a failed batch is submitted on
its own (again with the retry loop); items that still fail are kept with
a null embedding and the error message. -/
def processIndividually (itemApi : Nat → Nat → Except String EmbApiResponse) :
    Nat → List Chunk → List EmbeddedChunk
  | _, [] => []
  | i, c :: rest =>
    (match (callEmbeddingAPI (itemApi i) 0).2 with
     | .ok r => ⟨c, some (r.data 0), some embModel, none⟩
     | .error e => ⟨c, none, none, some e⟩) ::
    processIndividually itemApi (i + 1) rest

/-- `validateChunks`: drop whitespace-only chunks, truncate over-long
texts to 8000 characters. -/
def validateChunks (chunks : List Chunk) : List Chunk :=
  chunks.filterMap fun c =>
    if jsTrim c.text = "" then none
    else if c.text.length > 8000 then
      some { c with text := jsSubstringTo c.text 8000 }
    else some c

/-- `createBatches` with `this.batchSize = 100`. -/
def createBatches : List Chunk → List (List Chunk)
  | [] => []
  | c :: rest =>
    (c :: rest).take 100 :: createBatches ((c :: rest).drop 100)
termination_by l => l.length
decreasing_by simp; omega

/-- The batch loop of `generateEmbeddings`: a failed batch degrades to
per-item processing, results are concatenated in order. -/
def processBatches (batchApi : Nat → Nat → Except String EmbApiResponse)
    (itemApi : Nat → Nat → Nat → Except String EmbApiResponse) :
    Nat → List (List Chunk) → List EmbeddedChunk
  | _, [] => []
  | i, b :: rest =>
    (match processBatch (batchApi i) b with
     | .ok res => res
     | .error _ => processIndividually (itemApi i) 0 b) ++
    processBatches batchApi itemApi (i + 1) rest

/-- `generateEmbeddings`: its only own throw is the empty-input error
(rewrapped by its catch); batch errors are absorbed by the per-item
fallback. -/
def generateEmbeddings (batchApi : Nat → Nat → Except String EmbApiResponse)
    (itemApi : Nat → Nat → Nat → Except String EmbApiResponse)
    (chunks : List Chunk) : Except String (List EmbeddedChunk) :=
  if chunks = [] then
    .error "Embedding generation failed: No chunks provided for embedding generation"
  else
    .ok (processBatches batchApi itemApi 0 (createBatches (validateChunks chunks)))

theorem attachEmbeddings_length (r : Nat → List ℚ) :
    ∀ (i : Nat) (l : List Chunk), (attachEmbeddings r i l).length = l.length := by
  intro i l
  induction l generalizing i with
  | nil => rfl
  | cons c rest ih => simp [attachEmbeddings, ih]

theorem attachEmbeddings_isSome (r : Nat → List ℚ) :
    ∀ (i : Nat) (l : List Chunk) (x : EmbeddedChunk),
      x ∈ attachEmbeddings r i l → x.embedding.isSome = true := by
  intro i l
  induction l generalizing i with
  | nil => intro x hx; simp [attachEmbeddings] at hx
  | cons c rest ih =>
    intro x hx
    rcases List.mem_cons.mp hx with rfl | hx
    · rfl
    · exact ih (i + 1) x hx

theorem processIndividually_length
    (itemApi : Nat → Nat → Except String EmbApiResponse) :
    ∀ (i : Nat) (chunks : List Chunk),
      (processIndividually itemApi i chunks).length = chunks.length := by
  intro i chunks
  induction chunks generalizing i with
  | nil => rfl
  | cons c rest ih => simp [processIndividually, ih]

theorem processIndividually_get?
    (itemApi : Nat → Nat → Except String EmbApiResponse) :
    ∀ (chunks : List Chunk) (i j : Nat) (c : Chunk),
      chunks.get? j = some c →
      ∃ res, (processIndividually itemApi i chunks).get? j = some res ∧
        res.chunk = c ∧
        (∀ e, (callEmbeddingAPI (itemApi (i + j)) 0).2 = .error e →
          res.embedding = none ∧ res.embeddingError = some e) ∧
        (∀ r, (callEmbeddingAPI (itemApi (i + j)) 0).2 = .ok r →
          res.embedding = some (r.data 0)) := by
  intro chunks
  induction chunks with
  | nil => intro i j c hc; simp at hc
  | cons hd tl ih =>
    intro i j c hc
    cases j with
    | zero =>
      simp only [List.get?_cons_zero, Option.some_inj] at hc
      subst hc
      rcases hcall : (callEmbeddingAPI (itemApi i) 0).2 with e | r
      · refine ⟨⟨hd, none, none, some e⟩, ?_, rfl, ?_, ?_⟩
        · simp [processIndividually, hcall]
        · intro e₂ he₂
          rw [Nat.add_zero, hcall] at he₂
          cases he₂
          exact ⟨rfl, rfl⟩
        · intro r hr
          rw [Nat.add_zero, hcall] at hr
          cases hr
      · refine ⟨⟨hd, some (r.data 0), some embModel, none⟩, ?_, rfl, ?_, ?_⟩
        · simp [processIndividually, hcall]
        · intro e₂ he₂
          rw [Nat.add_zero, hcall] at he₂
          cases he₂
        · intro r₂ hr₂
          rw [Nat.add_zero, hcall] at hr₂
          cases hr₂
          exact rfl
    | succ j =>
      rcases ih (i + 1) j c (by simpa using hc) with ⟨res, hget, hchunk, herr, hok⟩
      refine ⟨res, ?_, hchunk, ?_, ?_⟩
      · simpa [processIndividually] using hget
      · intro e he
        exact herr e (by rw [show i + 1 + j = i + (j + 1) by omega]; exact he)
      · intro r hr
        exact hok r (by rw [show i + 1 + j = i + (j + 1) by omega]; exact hr)

theorem processBatch_ok_length (api : Nat → Except String EmbApiResponse)
    (batch : List Chunk) (res : List EmbeddedChunk)
    (h : processBatch api batch = .ok res) : res.length = batch.length := by
  rw [processBatch] at h
  rcases hcall : (callEmbeddingAPI api 0).2 with e | r <;> rw [hcall] at h
  · cases h
  · cases h
    exact attachEmbeddings_length _ _ _

theorem processBatches_length
    (batchApi : Nat → Nat → Except String EmbApiResponse)
    (itemApi : Nat → Nat → Nat → Except String EmbApiResponse) :
    ∀ (batches : List (List Chunk)) (i : Nat),
      (processBatches batchApi itemApi i batches).length =
        (batches.map List.length).sum := by
  intro batches
  induction batches with
  | nil => intro i; rfl
  | cons b rest ih =>
    intro i
    rw [processBatches]
    rcases hb : processBatch (batchApi i) b with e | res
    · simp [hb, processIndividually_length, ih]
    · simp [hb, processBatch_ok_length _ _ _ hb, ih]

/-- **C7**: each embedding batch call is retried with exponentially
doubling delays (1000ms, then 2000ms — strictly greater — before the
third attempt), a batch failing twice and succeeding on the third
attempt returns the full vector set; a batch that exhausts its retries
degrades to per-item submission where still-failing items carry a null
embedding and the error message instead of aborting, and the overall
output always covers every chunk of every batch. -/
theorem c7_embedding_retry_and_fallback :
    (∀ (api : Nat → Except String EmbApiResponse) (e₀ e₁ : String)
        (r : EmbApiResponse),
      api 0 = .error e₀ → api 1 = .error e₁ → api 2 = .ok r →
      callEmbeddingAPI api 0 = ([1000, 2000], .ok r) ∧ (1000 : Nat) < 2000) ∧
    (∀ (api : Nat → Except String EmbApiResponse) (r : EmbApiResponse)
        (batch : List Chunk),
      (callEmbeddingAPI api 0).2 = .ok r →
      ∃ res, processBatch api batch = .ok res ∧ res.length = batch.length ∧
        ∀ x ∈ res, x.embedding.isSome = true) ∧
    (∀ (itemApi : Nat → Nat → Except String EmbApiResponse)
        (chunks : List Chunk) (j : Nat) (c : Chunk) (e : String),
      chunks.get? j = some c →
      (callEmbeddingAPI (itemApi j) 0).2 = .error e →
      ∃ res, (processIndividually itemApi 0 chunks).get? j = some res ∧
        res.chunk = c ∧ res.embedding = none ∧ res.embeddingError = some e) ∧
    (∀ (batchApi : Nat → Nat → Except String EmbApiResponse)
        (itemApi : Nat → Nat → Nat → Except String EmbApiResponse)
        (i : Nat) (b : List Chunk) (rest : List (List Chunk)) (e : String),
      processBatch (batchApi i) b = .error e →
      processBatches batchApi itemApi i (b :: rest) =
        processIndividually (itemApi i) 0 b ++
          processBatches batchApi itemApi (i + 1) rest) ∧
    (∀ (batchApi : Nat → Nat → Except String EmbApiResponse)
        (itemApi : Nat → Nat → Nat → Except String EmbApiResponse)
        (batches : List (List Chunk)),
      (processBatches batchApi itemApi 0 batches).length =
        (batches.map List.length).sum) := by
  refine ⟨?_, ?_, ?_, ?_, ?_⟩
  · intro api e₀ e₁ r h0 h1 h2
    have hc2 : callEmbeddingAPI api 2 = ([], .ok r) := by
      rw [callEmbeddingAPI, h2]
    have hc1 : callEmbeddingAPI api 1 = ([2000], .ok r) := by
      rw [callEmbeddingAPI, h1]
      simp [embMaxRetries, embRetryDelay, hc2]
    have hc0 : callEmbeddingAPI api 0 = ([1000, 2000], .ok r) := by
      rw [callEmbeddingAPI, h0]
      simp [embMaxRetries, embRetryDelay, hc1]
    exact ⟨hc0, by norm_num⟩
  · intro api r batch hok
    refine ⟨attachEmbeddings r.data 0 batch, ?_, attachEmbeddings_length _ _ _,
      attachEmbeddings_isSome _ 0 batch⟩
    rw [processBatch, hok]
  · intro itemApi chunks j c e hget hcall
    rcases processIndividually_get? itemApi chunks 0 j c hget
      with ⟨res, hres, hchunk, herr, _⟩
    rcases herr e (by simpa using hcall) with ⟨hemb, hmsg⟩
    exact ⟨res, hres, hchunk, hemb, hmsg⟩
  · intro batchApi itemApi i b rest e herr
    rw [processBatches, herr]
  · intro batchApi itemApi batches
    exact processBatches_length batchApi itemApi batches 0

/-- Witness for `c7_embedding_retry_and_fallback`: an API failing on the
first two attempts and succeeding on the third. -/
theorem c7_embedding_retry_and_fallback_witness :
    callEmbeddingAPI
        (fun n => if n < 2 then .error "rate limited"
          else .ok ⟨fun _ => [1, 0]⟩) 0 =
      ([1000, 2000], .ok ⟨fun _ => [1, 0]⟩) ∧ (1000 : Nat) < 2000 :=
  c7_embedding_retry_and_fallback.1
    (fun n => if n < 2 then .error "rate limited" else .ok ⟨fun _ => [1, 0]⟩)
    "rate limited" "rate limited" ⟨fun _ => [1, 0]⟩ rfl rfl rfl

/-! ## Pinecone vector construction (`PineconeService.storeChunks`)

`uuidv4()` is modelled as the oracle `uuids : Nat → String` supplying the
fresh suffix of each mapped chunk; clock and upload metadata are the
remaining string parameters. -/

/-- Metadata stored with each vector. -/
structure VectorMeta where
  videoId : String
  chunkIndex : Nat
  text : String
  startTime : ℚ
  endTime : ℚ
  confidence : ℚ
  wordCount : Nat
  length : Nat
  embeddingModel : String
  createdAt : String
  title : String
  subject : String
  description : String
deriving DecidableEq, Repr

/-- A vector prepared for upsert. -/
structure PineconeVector where
  id : String
  values : List ℚ
  metadata : VectorMeta
deriving DecidableEq, Repr

/-- `chunks.filter(chunk => chunk.embedding && Array.isArray(...) &&
chunk.embedding.length > 0)`. -/
def validEmbedded (chunks : List EmbeddedChunk) : List EmbeddedChunk :=
  chunks.filter fun c =>
    match c.embedding with
    | some (_ :: _) => true
    | _ => false

/-- One element of the `validChunks.map(chunk => ({id: ..., values: ...,
metadata: {...}}))` (the `|| 0` defaults are identities here). -/
def buildVector (videoId createdAt title subject description : String)
    (suffix : String) (e : EmbeddedChunk) : PineconeVector :=
  { id := videoId ++ "_chunk_" ++ toString e.chunk.index ++ "_" ++ suffix
    values := e.embedding.getD []
    metadata :=
      { videoId := videoId
        chunkIndex := e.chunk.index
        text := e.chunk.text
        startTime := e.chunk.startTime
        endTime := e.chunk.endTime
        confidence := e.chunk.confidence
        wordCount := e.chunk.wordCount
        length := e.chunk.length
        embeddingModel := e.embeddingModel.getD "text-embedding-3-small"
        createdAt := createdAt
        title := title
        subject := subject
        description := description } }

/-- The map over `validChunks` with one fresh uuid per element. -/
def mapVectorsAux (videoId createdAt title subject description : String)
    (uuids : Nat → String) : Nat → List EmbeddedChunk → List PineconeVector
  | _, [] => []
  | i, e :: rest =>
    buildVector videoId createdAt title subject description (uuids i) e ::
    mapVectorsAux videoId createdAt title subject description uuids (i + 1) rest

/-- The vectors `storeChunks` prepares for upsert. -/
def storeChunksVectors (videoId : String) (chunks : List EmbeddedChunk)
    (uuids : Nat → String) (createdAt title subject description : String) :
    List PineconeVector :=
  mapVectorsAux videoId createdAt title subject description uuids 0
    (validEmbedded chunks)

theorem mapVectorsAux_mem (videoId createdAt title subject description : String)
    (uuids : Nat → String) :
    ∀ (l : List EmbeddedChunk) (i : Nat) (v : PineconeVector),
      v ∈ mapVectorsAux videoId createdAt title subject description uuids i l →
      ∃ (k : Nat) (e : EmbeddedChunk), l.get? k = some e ∧
        v.id = videoId ++ "_chunk_" ++ toString e.chunk.index ++ "_" ++
          uuids (i + k) := by
  intro l
  induction l with
  | nil => intro i v hv; simp [mapVectorsAux] at hv
  | cons e rest ih =>
    intro i v hv
    rcases List.mem_cons.mp hv with rfl | hv
    · exact ⟨0, e, rfl, by rw [Nat.add_zero]; rfl⟩
    · rcases ih (i + 1) v hv with ⟨k, e₂, hget, hid⟩
      refine ⟨k + 1, e₂, by simpa using hget, ?_⟩
      rw [hid, show i + 1 + k = i + (k + 1) by omega]

/-- **C8**: every vector record identifier prepared by `storeChunks` has
exactly the form `{videoId}_chunk_{chunkIndex}_{uuid}`, where the chunk
index comes from the mapped (valid) chunk and the suffix is the fresh
uuid drawn for that position. -/
theorem c8_vector_id_format (videoId createdAt title subject description :
    String) (chunks : List EmbeddedChunk) (uuids : Nat → String) :
    ∀ v ∈ storeChunksVectors videoId chunks uuids createdAt title subject
        description,
      ∃ (i : Nat) (e : EmbeddedChunk), (validEmbedded chunks).get? i = some e ∧
        v.id = videoId ++ "_chunk_" ++ toString e.chunk.index ++ "_" ++
          uuids i := by
  intro v hv
  rcases mapVectorsAux_mem videoId createdAt title subject description uuids
    (validEmbedded chunks) 0 v hv with ⟨k, e, hget, hid⟩
  exact ⟨k, e, hget, by simpa using hid⟩

/-- Witness for `c8_vector_id_format` at a concrete chunk list. -/
theorem c8_vector_id_format_witness :
    ∃ (i : Nat) (e : EmbeddedChunk),
      (validEmbedded [⟨⟨0, "t", 1, 1, 0, 1, 1⟩, some [1], some "m", none⟩]).get?
          i = some e ∧
      (buildVector "vid" "now" "ti" "su" "de" ("u" ++ toString 0)
          ⟨⟨0, "t", 1, 1, 0, 1, 1⟩, some [1], some "m", none⟩).id =
        "vid" ++ "_chunk_" ++ toString e.chunk.index ++ "_" ++
          (fun i => "u" ++ toString i) i :=
  c8_vector_id_format "vid" "now" "ti" "su" "de"
    [⟨⟨0, "t", 1, 1, 0, 1, 1⟩, some [1], some "m", none⟩]
    (fun i => "u" ++ toString i)
    (buildVector "vid" "now" "ti" "su" "de" ("u" ++ toString 0)
      ⟨⟨0, "t", 1, 1, 0, 1, 1⟩, some [1], some "m", none⟩)
    (by simp [storeChunksVectors, validEmbedded, mapVectorsAux])

/-! ## Orchestrator (`ProcessingService.processFile`) and the reprocess
endpoint (`POST /api/processing/reprocess/:videoId`)

Persistent side effects are traced as `PipelineEffect` values in
execution order; stage bodies are outcome oracles (their payloads do not
influence which effects occur). -/

/-- A persistent side effect of the pipeline or the reprocess route.
`updateVideo` records the written `status`, `processing_stage`,
`processing_progress` and the written `error_message` (`none` = column
not written, `some none` = written NULL). -/
inductive PipelineEffect where
  | updateVideo (status stage : String) (progress : Nat)
      (errorWrite : Option (Option String))
  | storeVectors
  | saveTranscriptAndChunks
  | deleteVideoVectors
  | deleteConversations
  | deleteChunks
  | deleteTranscript
  | cleanupFiles
deriving DecidableEq, Repr

/-- `updateProcessingStatus`: derives the `status` column from the stage
and (because of `if (errorMessage)`) only writes a truthy error message. -/
def updateProcessingStatus (stage : String) (progress : Nat)
    (errorMessage : Option String) : PipelineEffect :=
  let status := if stage = "completed" then "ready"
    else if stage = "failed" then "failed" else "processing"
  let errorWrite : Option (Option String) :=
    match errorMessage with
    | some e => if e = "" then none else some (some e)
    | none => none
  .updateVideo status stage progress errorWrite

/-- Outcomes of the six pipeline stages for one run: `error e` is the
(already wrapped) message the stage helper throws. -/
structure StageOutcomes where
  extractAudio : Except String Unit
  transcribe : Except String Unit
  chunk : Except String Unit
  embed : Except String Unit
  store : Except String Unit
  save : Except String Unit

/-- `processFile`: optimistic status update before each stage; on a stage
throwing, the catch block marks `failed` (progress 0) with the error
message, cleans up the extracted audio when one exists, and rethrows —
nothing else.  `storeVectors` appears once the Pinecone storage stage
succeeded (its batch loop absorbs batch errors, and its own throws
precede any upsert). -/
def processFile (o : StageOutcomes) : List PipelineEffect × Option String :=
  let u1 := updateProcessingStatus "extracting_audio" 10 none
  let u2 := updateProcessingStatus "transcribing" 25 none
  let u3 := updateProcessingStatus "chunking" 50 none
  let u4 := updateProcessingStatus "embedding" 70 none
  let u5 := updateProcessingStatus "storing" 85 none
  let u6 := updateProcessingStatus "completed" 100 none
  let fail := fun (done : List PipelineEffect) (e : String) (hasAudio : Bool) =>
    (done ++ [updateProcessingStatus "failed" 0 (some e)] ++
      (if hasAudio then [PipelineEffect.cleanupFiles] else []),
     some ("Processing failed: " ++ e))
  match o.extractAudio with
  | .error e => fail [u1] e false
  | .ok _ =>
    match o.transcribe with
    | .error e => fail [u1, u2] e true
    | .ok _ =>
      match o.chunk with
      | .error e => fail [u1, u2, u3] e true
      | .ok _ =>
        match o.embed with
        | .error e => fail [u1, u2, u3, u4] e true
        | .ok _ =>
          match o.store with
          | .error e => fail [u1, u2, u3, u4, u5] e true
          | .ok _ =>
            match o.save with
            | .error e => fail [u1, u2, u3, u4, u5, .storeVectors] e true
            | .ok _ =>
              ([u1, u2, u3, u4, u5, .storeVectors, .saveTranscriptAndChunks,
                u6, .cleanupFiles], none)

/-- The reprocess route: HTTP status and traced effects.  A recording in
`processing` state is rejected with 400 and no effects; otherwise vectors
(best-effort), conversations, chunks and the transcript are deleted and
the status row is reset. -/
def reprocessVideo (videoStatus : String) : Nat × List PipelineEffect :=
  if videoStatus = "processing" then (400, [])
  else
    (200, [.deleteVideoVectors, .deleteConversations, .deleteChunks,
      .deleteTranscript,
      .updateVideo "processing" "uploading" 5 (some none)])

/-- C1, counterexample: the database-save stage fails after the vectors
were stored, the recording is marked failed — and no deletion of the
stored vectors is attempted anywhere in the trace. -/
theorem c1_counterexample :
    PipelineEffect.storeVectors ∈
      (processFile ⟨.ok (), .ok (), .ok (), .ok (), .ok (),
        .error "Database save failed: boom"⟩).1 ∧
    PipelineEffect.updateVideo "failed" "failed" 0
        (some (some "Database save failed: boom")) ∈
      (processFile ⟨.ok (), .ok (), .ok (), .ok (), .ok (),
        .error "Database save failed: boom"⟩).1 ∧
    PipelineEffect.deleteVideoVectors ∉
      (processFile ⟨.ok (), .ok (), .ok (), .ok (), .ok (),
        .error "Database save failed: boom"⟩).1 := by
  refine ⟨?_, ?_, ?_⟩ <;> decide

/-- Effects that remove persisted artifacts. -/
def isDeletionEffect : PipelineEffect → Bool
  | .deleteVideoVectors => true
  | .deleteConversations => true
  | .deleteChunks => true
  | .deleteTranscript => true
  | _ => false

/-- `processFile` never deletes anything it (or a previous run) persisted:
its failure handling is status update + temp-file cleanup only. -/
theorem processFile_no_deletions (o : StageOutcomes) :
    (processFile o).1.all (fun f => !isDeletionEffect f) = true := by
  rcases o with ⟨a, b, c, d, s, v⟩
  cases a <;> cases b <;> cases c <;> cases d <;> cases s <;> cases v <;> rfl

/-- **C1** (amended).  When a stage throws, `processFile` marks the
recording `failed` (progress 0) with the error message, cleans up the
extracted audio file when one exists, halts (rethrowing the wrapped
error) — and it deletes nothing: neither the already-persisted Transcript
and Chunks nor any VectorRecords already written (no vector cleanup is
attempted on failure). -/
theorem c1_failure_marks_failed_no_cleanup_of_artifacts (o : StageOutcomes) :
    (∀ e, o.extractAudio = .error e →
      processFile o =
        ([updateProcessingStatus "extracting_audio" 10 none,
          updateProcessingStatus "failed" 0 (some e)],
          some ("Processing failed: " ++ e))) ∧
    (∀ e, o.extractAudio = .ok () → o.transcribe = .error e →
      processFile o =
        ([updateProcessingStatus "extracting_audio" 10 none,
          updateProcessingStatus "transcribing" 25 none,
          updateProcessingStatus "failed" 0 (some e), .cleanupFiles],
          some ("Processing failed: " ++ e))) ∧
    (∀ e, o.extractAudio = .ok () → o.transcribe = .ok () →
      o.chunk = .error e →
      processFile o =
        ([updateProcessingStatus "extracting_audio" 10 none,
          updateProcessingStatus "transcribing" 25 none,
          updateProcessingStatus "chunking" 50 none,
          updateProcessingStatus "failed" 0 (some e), .cleanupFiles],
          some ("Processing failed: " ++ e))) ∧
    (∀ e, o.extractAudio = .ok () → o.transcribe = .ok () → o.chunk = .ok () →
      o.embed = .error e →
      processFile o =
        ([updateProcessingStatus "extracting_audio" 10 none,
          updateProcessingStatus "transcribing" 25 none,
          updateProcessingStatus "chunking" 50 none,
          updateProcessingStatus "embedding" 70 none,
          updateProcessingStatus "failed" 0 (some e), .cleanupFiles],
          some ("Processing failed: " ++ e))) ∧
    (∀ e, o.extractAudio = .ok () → o.transcribe = .ok () → o.chunk = .ok () →
      o.embed = .ok () → o.store = .error e →
      processFile o =
        ([updateProcessingStatus "extracting_audio" 10 none,
          updateProcessingStatus "transcribing" 25 none,
          updateProcessingStatus "chunking" 50 none,
          updateProcessingStatus "embedding" 70 none,
          updateProcessingStatus "storing" 85 none,
          updateProcessingStatus "failed" 0 (some e), .cleanupFiles],
          some ("Processing failed: " ++ e))) ∧
    (∀ e, o.extractAudio = .ok () → o.transcribe = .ok () → o.chunk = .ok () →
      o.embed = .ok () → o.store = .ok () → o.save = .error e →
      processFile o =
        ([updateProcessingStatus "extracting_audio" 10 none,
          updateProcessingStatus "transcribing" 25 none,
          updateProcessingStatus "chunking" 50 none,
          updateProcessingStatus "embedding" 70 none,
          updateProcessingStatus "storing" 85 none, .storeVectors,
          updateProcessingStatus "failed" 0 (some e), .cleanupFiles],
          some ("Processing failed: " ++ e))) ∧
    (PipelineEffect.deleteVideoVectors ∉ (processFile o).1 ∧
      PipelineEffect.deleteChunks ∉ (processFile o).1 ∧
      PipelineEffect.deleteTranscript ∉ (processFile o).1 ∧
      PipelineEffect.deleteConversations ∉ (processFile o).1) := by
  refine ⟨?_, ?_, ?_, ?_, ?_, ?_, ?_⟩
  · intro e h
    simp [processFile, h]
  · intro e h₁ h₂
    simp [processFile, h₁, h₂]
  · intro e h₁ h₂ h₃
    simp [processFile, h₁, h₂, h₃]
  · intro e h₁ h₂ h₃ h₄
    simp [processFile, h₁, h₂, h₃, h₄]
  · intro e h₁ h₂ h₃ h₄ h₅
    simp [processFile, h₁, h₂, h₃, h₄, h₅]
  · intro e h₁ h₂ h₃ h₄ h₅ h₆
    simp [processFile, h₁, h₂, h₃, h₄, h₅, h₆]
  · have hall := processFile_no_deletions o
    rw [List.all_eq_true] at hall
    refine ⟨?_, ?_, ?_, ?_⟩ <;>
      · intro hmem
        have := hall _ hmem
        simp [isDeletionEffect] at this

/-- Witness for `c1_failure_marks_failed_no_cleanup_of_artifacts`: the
vector-storage stage fails. -/
theorem c1_failure_witness :
    processFile ⟨.ok (), .ok (), .ok (), .ok (),
        .error "Pinecone storage failed: boom", .ok ()⟩ =
      ([updateProcessingStatus "extracting_audio" 10 none,
        updateProcessingStatus "transcribing" 25 none,
        updateProcessingStatus "chunking" 50 none,
        updateProcessingStatus "embedding" 70 none,
        updateProcessingStatus "storing" 85 none,
        updateProcessingStatus "failed" 0 (some "Pinecone storage failed: boom"),
        .cleanupFiles],
        some ("Processing failed: " ++ "Pinecone storage failed: boom")) :=
  (c1_failure_marks_failed_no_cleanup_of_artifacts
    ⟨.ok (), .ok (), .ok (), .ok (),
      .error "Pinecone storage failed: boom", .ok ()⟩).2.2.2.2.1
    "Pinecone storage failed: boom" rfl rfl rfl rfl rfl

/-- Effects updating the video status row. -/
def isVideoUpdate : PipelineEffect → Bool
  | .updateVideo _ _ _ _ => true
  | _ => false

/-- C2, counterexample: reprocessing a `failed` recording succeeds, but
the only status-row write sets `processing_progress` to 5, not 0 as
claimed. -/
theorem c2_counterexample :
    (reprocessVideo "failed").1 = 200 ∧
    (reprocessVideo "failed").2.filter isVideoUpdate =
      [.updateVideo "processing" "uploading" 5 (some none)] ∧
    PipelineEffect.updateVideo "processing" "uploading" 0 (some none) ∉
      (reprocessVideo "failed").2 := by
  refine ⟨?_, ?_, ?_⟩ <;> decide

/-- **C2** (amended).  Reprocessing any recording whose status is not
`processing` deletes its VectorRecords (best-effort), chat conversations,
Chunks and Transcript, then resets the status row to
`status=processing, stage=uploading, progress=5, error=null`; a reprocess
request while the recording is `processing` is rejected (HTTP 400)
without mutating state. -/
theorem c2_reprocess_resets (videoStatus : String) :
    (videoStatus ≠ "processing" →
      reprocessVideo videoStatus =
        (200, [.deleteVideoVectors, .deleteConversations, .deleteChunks,
          .deleteTranscript,
          .updateVideo "processing" "uploading" 5 (some none)])) ∧
    (videoStatus = "processing" → reprocessVideo videoStatus = (400, [])) := by
  constructor <;> intro h <;> simp [reprocessVideo, h]

/-- Witness for `c2_reprocess_resets` at the `failed` and `processing`
statuses. -/
theorem c2_reprocess_resets_witness :
    reprocessVideo "failed" =
      (200, [.deleteVideoVectors, .deleteConversations, .deleteChunks,
        .deleteTranscript,
        .updateVideo "processing" "uploading" 5 (some none)]) ∧
    reprocessVideo "processing" = (400, []) :=
  ⟨(c2_reprocess_resets "failed").1 (by decide),
   (c2_reprocess_resets "processing").2 rfl⟩

end LectureChat
